import Mathlib

/-!
Pixel pipeline of `sdl.c`.

A shallow embedding of the pixel routines of `src/sdl.c` (`get_pixel`, `put_pixel`,
`create_blank_surface`, `flipImage`, `blur`, `grayscale`) and theorems about them.

Conventions of the embedding:

* a `Uint32` is a natural number below `2 ^ 32`, a `Uint8` one below `2 ^ 8`;
  C `int` coordinates are integers;
* the pixel memory of a surface is a flat list of `Uint32`; a read or a write at a
  flat index outside that list is undefined behaviour in C and is `none` here, and so is
  the use of the value of a call that reaches the end of its function without a `return`;
* loops are folds over the list of values the loop variable takes.
-/

namespace SdlImage

/-! ## Data model -/

/-- The fields of SDL's `SDL_PixelFormat` that `SDL_GetRGBA` reads, for a format with
8 bits per channel (no precision loss). `Amask = 0` means: no alpha channel. -/
structure SDL_PixelFormat where
  Rmask : Nat
  Gmask : Nat
  Bmask : Nat
  Amask : Nat
  Rshift : Nat
  Gshift : Nat
  Bshift : Nat
  Ashift : Nat
deriving DecidableEq, Repr

/-- The format `SDL_PIXELFORMAT_ARGB8888`, the one `main` converts the image to before it
runs the filters (`sdl.c` line 201). -/
def ARGB8888 : SDL_PixelFormat :=
  { Rmask := 0x00FF0000, Gmask := 0x0000FF00, Bmask := 0x000000FF, Amask := 0xFF000000,
    Rshift := 16, Gshift := 8, Bshift := 0, Ashift := 24 }

/-- The format SDL picks for depth 32 when all four masks are 0
(`SDL_PIXELFORMAT_RGB888`): what the second `SDL_CreateRGBSurface` call of
`create_blank_surface` asks for. -/
def RGB888 : SDL_PixelFormat :=
  { Rmask := 0x00FF0000, Gmask := 0x0000FF00, Bmask := 0x000000FF, Amask := 0,
    Rshift := 16, Gshift := 8, Bshift := 0, Ashift := 0 }

/-- The fields of `SDL_Surface` the program uses. `pixels` is the memory behind
`surface->pixels`, viewed as `Uint32 *`. -/
structure SDL_Surface where
  format : SDL_PixelFormat
  w : Nat
  h : Nat
  pitch : Nat
  pixels : List Nat
deriving DecidableEq, Repr

/-- The C `enum flipDirection`. -/
inductive flipDirection where
  | FLIP_X
  | FLIP_Y
deriving DecidableEq, Repr

/-- A surface as SDL hands out 32-bit surfaces: rows are `4 * w` bytes, the pixel
memory holds `w * h` words, each a `Uint32`. -/
def SDL_Surface.WellFormed (s : SDL_Surface) : Prop :=
  s.pitch = 4 * s.w ∧ s.pixels.length = s.w * s.h ∧ ∀ p ∈ s.pixels, p < 2 ^ 32

instance (s : SDL_Surface) : Decidable s.WellFormed := by
  unfold SDL_Surface.WellFormed; infer_instance

/-! ## Pixel access -/

/-- Read of `pixels[i]` for a C `int` index `i`. -/
def readWord (pixels : List Nat) (i : Int) : Option Nat :=
  if 0 ≤ i then pixels[i.toNat]? else none

/-- Write `pixels[i] = v` for a C `int` index `i`. -/
def writeWord (pixels : List Nat) (i : Int) (v : Nat) : Option (List Nat) :=
  if 0 ≤ i ∧ i.toNat < pixels.length then some (pixels.set i.toNat v) else none

/-- Function `get_pixel` (`sdl.c` lines 15-21): `pixels[(y * surface->w) + x]`. -/
def get_pixel (surface : SDL_Surface) (x y : Int) : Option Nat :=
  readWord surface.pixels ((y * surface.w) + x)

/-- Function `put_pixel` (`sdl.c` lines 24-30): `pixels[(y * surface->w) + x] = pixel`. -/
def put_pixel (surface : SDL_Surface) (x y : Int) (pixel : Nat) : Option SDL_Surface :=
  (writeWord surface.pixels ((y * surface.w) + x) pixel).map
    fun px => { surface with pixels := px }

/-- The surface the call `SDL_CreateRGBSurface(0, width, height, 32, 0, 0, 0, 0)` of `sdl.c`
line 60 creates: default masks for depth 32, rows of `4 * width` bytes, and pixel memory
that SDL fills with zeros. The surface of the first call (line 51) is dropped when line 60
assigns `surface` again and plays no further part. -/
def SDL_CreateRGBSurface (width height : Nat) : SDL_Surface :=
  { format := RGB888, w := width, h := height, pitch := 4 * width,
    pixels := List.replicate (width * height) 0 }

/-- Function `create_blank_surface` (`sdl.c` lines 32-61). The surface is created and
assigned to the local `surface`, and then the closing brace is reached without a `return`
statement: the function hands no value to its caller. Using the value of such a call, as
`flipImage` does at line 67, is undefined in C; that is `none` here. -/
def create_blank_surface (width height : Nat) : Option SDL_Surface :=
  let _surface := SDL_CreateRGBSurface width height
  none

/-! ## Flip -/

/-- Body of the inner loop of `flipImage` (`sdl.c` lines 75-80), with
`rx = ret->w - 1 - x` and `ry = ret->h - 1 - y`. -/
def flipStep (origin : SDL_Surface) (dir : flipDirection) (x : Nat) (ret : SDL_Surface)
    (y : Nat) : Option SDL_Surface :=
  let rx : Int := (ret.w : Int) - 1 - x
  let ry : Int := (ret.h : Int) - 1 - y
  (get_pixel origin x y).bind fun pixel =>
    match dir with
    | flipDirection.FLIP_X => put_pixel ret rx y pixel
    | flipDirection.FLIP_Y => put_pixel ret y ry pixel

/-- The two loops of `flipImage` and its `return ret` (`sdl.c` lines 71-84), for a given
surface `ret`. -/
def flipLoops (origin ret : SDL_Surface) (dir : flipDirection) : Option SDL_Surface :=
  (List.range ret.w).foldlM
    (fun acc x => (List.range ret.h).foldlM (flipStep origin dir x) acc) ret

/-- Function `flipImage` (`sdl.c` lines 63-85): `ret` is the value of the call
`create_blank_surface(origin->w, origin->h)`. -/
def flipImage (origin : SDL_Surface) (dir : flipDirection) : Option SDL_Surface :=
  (create_blank_surface origin.w origin.h).bind fun ret => flipLoops origin ret dir

/-- The loops of `flipImage` run on the surface that `create_blank_surface` creates at
line 60: what `flipImage` computes once `create_blank_surface` ends with
`return surface;`. -/
def flipOnBlank (origin : SDL_Surface) (dir : flipDirection) : Option SDL_Surface :=
  flipLoops origin (SDL_CreateRGBSurface origin.w origin.h) dir

/-- Body of the inner loop of `flipImage` once more, with the memory of both surfaces as
the state: `mem.1` is `*origin`, `mem.2` is `*ret`. -/
def flipStepMem (dir : flipDirection) (x : Nat) (mem : SDL_Surface × SDL_Surface) (y : Nat) :
    Option (SDL_Surface × SDL_Surface) :=
  let rx : Int := (mem.2.w : Int) - 1 - x
  let ry : Int := (mem.2.h : Int) - 1 - y
  (get_pixel mem.1 x y).bind fun pixel =>
    match dir with
    | flipDirection.FLIP_X => (put_pixel mem.2 rx y pixel).map fun ret => (mem.1, ret)
    | flipDirection.FLIP_Y => (put_pixel mem.2 y ry pixel).map fun ret => (mem.1, ret)

/-- The loops of `flipImage` (`sdl.c` lines 71-84) with both surfaces in the state: the
result is the pair of `*origin` after the loops and the returned surface. -/
def flipLoopsMem (origin ret : SDL_Surface) (dir : flipDirection) :
    Option (SDL_Surface × SDL_Surface) :=
  (List.range ret.w).foldlM
    (fun mem x => (List.range ret.h).foldlM (flipStepMem dir x) mem) (origin, ret)

/-- Function `flipImage` (`sdl.c` lines 63-85) with both surfaces in the state. -/
def flipImageMem (origin : SDL_Surface) (dir : flipDirection) :
    Option (SDL_Surface × SDL_Surface) :=
  (create_blank_surface origin.w origin.h).bind fun ret => flipLoopsMem origin ret dir

/-! ## Channels -/

/-- Function `SDL_GetRGBA` of SDL for an 8-bit-per-channel format: `(r, g, b, a)`. Each channel is
`(pixel & mask) >> shift`; without an alpha mask alpha is `SDL_ALPHA_OPAQUE`. -/
def SDL_GetRGBA (pixel : Nat) (format : SDL_PixelFormat) : Nat × Nat × Nat × Nat :=
  ((pixel &&& format.Rmask) >>> format.Rshift,
   (pixel &&& format.Gmask) >>> format.Gshift,
   (pixel &&& format.Bmask) >>> format.Bshift,
   if format.Amask = 0 then 255 else (pixel &&& format.Amask) >>> format.Ashift)

/-- The values of a C loop `for (int i = lo; i <= hi; i++)`. -/
def intRange (lo hi : Int) : List Int :=
  (List.range (hi + 1 - lo).toNat).map fun k => lo + (k : Int)

/-! ## Blur -/

/-- The four `Uint32` accumulators `rb, gb, bb, ab` of `blur`. -/
structure BlurAcc where
  rb : Nat
  gb : Nat
  bb : Nat
  ab : Nat
deriving DecidableEq, Repr

/-- The accumulation `rb += ro; gb += go; bb += bo; ab += ao` of `blur` (`sdl.c` lines
112-118) for the neighbour colour `colOth`; the additions are `Uint32` additions. -/
def blurAdd (format : SDL_PixelFormat) (acc : BlurAcc) (colOth : Nat) : BlurAcc :=
  let (ro, go, bo, ao) := SDL_GetRGBA colOth format
  { rb := (acc.rb + ro) % 2 ^ 32, gb := (acc.gb + go) % 2 ^ 32,
    bb := (acc.bb + bo) % 2 ^ 32, ab := (acc.ab + ao) % 2 ^ 32 }

/-- Body of the innermost loop of `blur` (`sdl.c` lines 108-119): one cell of the
window, skipped when it lies outside the buffer. -/
def blurCell (image : SDL_Surface) (x y yo : Int) (acc : BlurAcc) (xo : Int) :
    Option BlurAcc :=
  if y + yo ≥ 0 ∧ x + xo ≥ 0 ∧ y + yo < image.h ∧ x + xo < ((image.pitch / 4 : Nat) : Int) then
    (readWord image.pixels (((y + yo) * ((image.pitch / 4 : Nat) : Int)) + (x + xo))).map
      (blurAdd image.format acc)
  else some acc

/-- The two window loops of `blur` (`sdl.c` lines 100-121) for the pixel `(x, y)`. -/
def blurSums (blur_extent : Int) (image : SDL_Surface) (x y : Int) : Option BlurAcc :=
  (intRange (-blur_extent) blur_extent).foldlM
    (fun acc yo => (intRange (-blur_extent) blur_extent).foldlM (blurCell image x y yo) acc)
    { rb := 0, gb := 0, bb := 0, ab := 0 }

/-- The divisor `((blur_extent * 2) + 1) * ((blur_extent * 2) + 1)` of `blur`, an `int`
converted to `Uint32` for the division. -/
def blurDivisor (blur_extent : Int) : Nat :=
  ((((blur_extent * 2) + 1) * ((blur_extent * 2) + 1)) % 2 ^ 32).toNat

/-- The colour `blur` assembles (`sdl.c` lines 136-142): each quotient is cast to
`Uint8`, then `(r) | (g << 8) | (b << 16) | (a << 24)`, stored as a `Uint32`. -/
def blurColor (blur_extent : Int) (acc : BlurAcc) : Nat :=
  let r := (acc.rb / blurDivisor blur_extent) % 256
  let g := (acc.gb / blurDivisor blur_extent) % 256
  let b := (acc.bb / blurDivisor blur_extent) % 256
  let a := (acc.ab / blurDivisor blur_extent) % 256
  r ||| (g <<< 8) ||| (b <<< 16) ||| (a <<< 24)

/-- Body of the pixel loop of `blur` (`sdl.c` lines 93-143) for the pixel `(x, y)`:
reads and writes the one buffer `image`. A zero divisor is a division by zero. -/
def blurStep (blur_extent : Int) (y : Nat) (image : SDL_Surface) (x : Nat) :
    Option SDL_Surface :=
  let i : Int := ((y : Int) * ((image.pitch / 4 : Nat) : Int)) + x
  (readWord image.pixels i).bind fun _color =>
    (blurSums blur_extent image x y).bind fun acc =>
      if blurDivisor blur_extent = 0 then none
      else (writeWord image.pixels i (blurColor blur_extent acc)).map
        fun px => { image with pixels := px }

/-- Function `blur` (`sdl.c` lines 87-146), with the globals `image` and `blur_extent` as
arguments and the updated `image` as result. -/
def blur (blur_extent : Int) (image : SDL_Surface) : Option SDL_Surface :=
  (List.range image.h).foldlM
    (fun img y => (List.range (image.pitch / 4)).foldlM (blurStep blur_extent y) img) image

/-- The blur the specification asks for, with separate read and write buffers: the body
of the pixel loop evaluated for `(x, y)` with every read taken from the unmodified
snapshot `src` and the result stored in `dst`. -/
def blurSnapshotStep (blur_extent : Int) (src : SDL_Surface) (y : Nat) (dst : SDL_Surface)
    (x : Nat) : Option SDL_Surface :=
  let i : Int := ((y : Int) * ((src.pitch / 4 : Nat) : Int)) + x
  (readWord src.pixels i).bind fun _color =>
    (blurSums blur_extent src x y).bind fun acc =>
      if blurDivisor blur_extent = 0 then none
      else (writeWord dst.pixels i (blurColor blur_extent acc)).map
        fun px => { dst with pixels := px }

/-- The blur the specification asks for: the same per-pixel computation as `blur`, for
every pixel in the same order, reading the snapshot `image` and writing a copy. -/
def blurSnapshot (blur_extent : Int) (image : SDL_Surface) : Option SDL_Surface :=
  (List.range image.h).foldlM
    (fun dst y => (List.range (image.pitch / 4)).foldlM (blurSnapshotStep blur_extent image y) dst)
    image

/-- Red channel of an `(r, g, b, a)` tuple. -/
def chanR (c : Nat × Nat × Nat × Nat) : Nat := c.1

/-- Green channel of an `(r, g, b, a)` tuple. -/
def chanG (c : Nat × Nat × Nat × Nat) : Nat := c.2.1

/-- Blue channel of an `(r, g, b, a)` tuple. -/
def chanB (c : Nat × Nat × Nat × Nat) : Nat := c.2.2.1

/-- Alpha channel of an `(r, g, b, a)` tuple. -/
def chanA (c : Nat × Nat × Nat × Nat) : Nat := c.2.2.2

/-- What the window cell `(x + xo, y + yo)` contributes to the sum of the channel `sel`
around `(x, y)`: the channel of the word stored there when the cell lies inside the
buffer, nothing when it lies outside. -/
def cellChannel (sel : Nat × Nat × Nat × Nat → Nat) (image : SDL_Surface) (x y yo xo : Int) :
    Nat :=
  if y + yo ≥ 0 ∧ x + xo ≥ 0 ∧ y + yo < image.h ∧ x + xo < ((image.pitch / 4 : Nat) : Int) then
    match readWord image.pixels (((y + yo) * ((image.pitch / 4 : Nat) : Int)) + (x + xo)) with
    | some colOth => sel (SDL_GetRGBA colOth image.format)
    | none => 0
  else 0

/-- The sum `S`, over the natural numbers, of the channel `sel` over the cells
`(x + xo, y + yo)`, `xo, yo` in `[-blur_extent, blur_extent]`, that lie inside the
buffer. -/
def windowSum (sel : Nat × Nat × Nat × Nat → Nat) (blur_extent : Int) (image : SDL_Surface)
    (x y : Int) : Nat :=
  ((intRange (-blur_extent) blur_extent).map fun yo =>
    ((intRange (-blur_extent) blur_extent).map fun xo =>
      cellChannel sel image x y yo xo).sum).sum

/-- The four outputs of `SDL_GetRGBA` are `Uint8` values for the format. -/
def ByteChannels (format : SDL_PixelFormat) : Prop :=
  ∀ p, chanR (SDL_GetRGBA p format) ≤ 255 ∧ chanG (SDL_GetRGBA p format) ≤ 255 ∧
    chanB (SDL_GetRGBA p format) ≤ 255 ∧ chanA (SDL_GetRGBA p format) ≤ 255

/-- An `n` by `n` ARGB8888 buffer with every channel of every pixel at 255. -/
def whiteSquare (n : Nat) : SDL_Surface :=
  { format := ARGB8888, w := n, h := n, pitch := 4 * n,
    pixels := List.replicate (n * n) 0xFFFFFFFF }

/-! ## Grayscale -/

/-- Position of the leading bit of `n` (`0` for `n < 2`), by halving; `fuel` bounds the
number of halvings. -/
def floorLog2Aux : Nat → Nat → Nat
  | 0, _ => 0
  | fuel + 1, n => if 2 ≤ n then floorLog2Aux fuel (n / 2) + 1 else 0

/-- Position of the leading bit of `n`: the largest `k` with `2 ^ k ≤ n`, for `n ≥ 1`. -/
def floorLog2 (n : Nat) : Nat := floorLog2Aux n n

/-- Round the rational `num / den` to 24 significant bits, ties to even: the rounding
of IEEE-754 binary32. Values are counted in units of `2 ^ (-27)`; the result is exact
binary32 rounding for every value that is at least `2 ^ (-4)` (where a unit in the last
place is a whole number of units) and for every value binary32 represents. -/
def f32Round (num den : Nat) : Nat :=
  let e := floorLog2 (num / den) - 23
  let d := den * 2 ^ e
  let q := num / d
  let r := num % d
  if 2 * r < d then q * 2 ^ e
  else if 2 * r = d ∧ q % 2 = 0 then q * 2 ^ e
  else (q + 1) * 2 ^ e

/-- The `float` literal `num / den`, in units of `2 ^ (-27)`. -/
def f32Lit (num den : Nat) : Nat := f32Round (num * 2 ^ 27) den

/-- Product `c * n` in `float`, for a `float` `c` and an integer `n` below `2 ^ 24`
(converted to `float` without error). -/
def f32MulInt (c n : Nat) : Nat := f32Round (c * n) 1

/-- Sum `a + b` in `float`. -/
def f32Add (a b : Nat) : Nat := f32Round (a + b) 1

/-- Conversion of a `float` to `Uint8`: the fraction is dropped. -/
def f32ToUint8 (a : Nat) : Nat := (a / 2 ^ 27) % 256

/-- The value `v` of `grayscale` (`sdl.c` line 168):
`0.212671f * r + 0.715160f * g + 0.072169f * b`, every operation in `float`
(C `FLT_EVAL_METHOD` 0, no contraction), then narrowed to `Uint8`. -/
def luminance (r g b : Nat) : Nat :=
  f32ToUint8
    (f32Add (f32Add (f32MulInt (f32Lit 212671 1000000) r) (f32MulInt (f32Lit 715160 1000000) g))
      (f32MulInt (f32Lit 72169 1000000) b))

/-- The word `(0xFF << 24) | (v << 16) | (v << 8) | v` of `grayscale` (`sdl.c` line 170). -/
def grayWord (v : Nat) : Nat :=
  (0xFF <<< 24) ||| (v <<< 16) ||| (v <<< 8) ||| v

/-- The gray value `v` that `grayscale` computes for `pixel` (`sdl.c` lines 161-168). -/
def grayValue (format : SDL_PixelFormat) (pixel : Nat) : Nat :=
  let (r, g, b, _) := SDL_GetRGBA pixel format
  luminance r g b

/-- The pixel `grayscale` stores in place of `pixel` (`sdl.c` lines 161-170). -/
def grayPixel (format : SDL_PixelFormat) (pixel : Nat) : Nat :=
  grayWord (grayValue format pixel)

/-- The gray values `v` for which the `float` luminance of `(v, v, v)` falls just below
`v`, so that the narrowing to `Uint8` yields `v - 1`. -/
def luminanceDrops : List Nat := [35, 41, 70, 73, 82, 140, 146, 164, 189, 207, 225]

/-- Body of the pixel loop of `grayscale` (`sdl.c` lines 157-171). -/
def grayStep (y : Nat) (image : SDL_Surface) (x : Nat) : Option SDL_Surface :=
  let i : Int := (y : Int) * (image.w : Int) + x
  (readWord image.pixels i).bind fun pixel =>
    (writeWord image.pixels i (grayPixel image.format pixel)).map
      fun px => { image with pixels := px }

/-- Function `grayscale` (`sdl.c` lines 148-174), with the global `image` as argument and the
updated `image` as result. -/
def grayscale (image : SDL_Surface) : Option SDL_Surface :=
  (List.range image.h).foldlM
    (fun img y => (List.range image.w).foldlM (grayStep y) img) image

/-! ## Loops and memory: general lemmas -/

/-- Hoare rule for a counting loop in `Option`: an invariant that holds at entry and is
carried by every iteration holds at exit, and the loop does not fail. -/
theorem foldlM_range_inv {σ : Type} (f : σ → Nat → Option σ) (P : Nat → σ → Prop)
    (n : Nat) (s0 : σ) (h0 : P 0 s0)
    (step : ∀ i s, i < n → P i s → ∃ s', f s i = some s' ∧ P (i + 1) s') :
    ∃ s', (List.range n).foldlM f s0 = some s' ∧ P n s' := by
  induction n with
  | zero => exact ⟨s0, by simp, h0⟩
  | succ k ih =>
    obtain ⟨s1, h1, p1⟩ := ih (fun i s hi hp => step i s (Nat.lt_succ_of_lt hi) hp)
    obtain ⟨s2, h2, p2⟩ := step k s1 (Nat.lt_succ_self k) p1
    refine ⟨s2, ?_, p2⟩
    rw [List.range_succ, List.foldlM_append, h1]
    simp [h2]

theorem readWord_natCast (pixels : List Nat) (n : Nat) :
    readWord pixels ((n : Nat) : Int) = pixels[n]? := by
  simp [readWord]

theorem writeWord_natCast (pixels : List Nat) (n v : Nat) (h : n < pixels.length) :
    writeWord pixels ((n : Nat) : Int) v = some (pixels.set n v) := by
  simp [writeWord, h]

/-- Row-major flat indices of cells inside a `w`-wide buffer stay below `w * h`. -/
theorem flat_lt {w h x y : Nat} (hx : x < w) (hy : y < h) : y * w + x < w * h := by
  calc y * w + x < y * w + w := by omega
    _ = (y + 1) * w := by ring
    _ ≤ h * w := Nat.mul_le_mul_right w hy
    _ = w * h := Nat.mul_comm h w

/-- Row-major flat indices determine the cell. -/
theorem flat_inj {w x y x' y' : Nat} (hx : x < w) (hx' : x' < w)
    (h : y * w + x = y' * w + x') : x = x' ∧ y = y' := by
  have h1 : (y * w + x) % w = x := by
    rw [Nat.add_comm, Nat.add_mul_mod_self_right, Nat.mod_eq_of_lt hx]
  have h2 : (y' * w + x') % w = x' := by
    rw [Nat.add_comm, Nat.add_mul_mod_self_right, Nat.mod_eq_of_lt hx']
  have hxx : x = x' := by rw [← h1, ← h2, h]
  subst hxx
  have hw : 0 < w := by omega
  have : y * w = y' * w := by omega
  exact ⟨rfl, Nat.eq_of_mul_eq_mul_right hw this⟩

/-! ## Flip: what the `FLIP_X` loops compute -/

theorem get_pixel_nat (s : SDL_Surface) (x y : Nat) :
    get_pixel s (x : Int) (y : Int) = s.pixels[y * s.w + x]? := by
  unfold get_pixel
  rw [show ((y : Int) * (s.w : Int) + (x : Int)) = ((y * s.w + x : Nat) : Int) by push_cast; ring]
  exact readWord_natCast _ _

theorem put_pixel_nat (s : SDL_Surface) (x y v : Nat) (h : y * s.w + x < s.pixels.length) :
    put_pixel s (x : Int) (y : Int) v = some { s with pixels := s.pixels.set (y * s.w + x) v } := by
  unfold put_pixel
  rw [show ((y : Int) * (s.w : Int) + (x : Int)) = ((y * s.w + x : Nat) : Int) by push_cast; ring]
  rw [writeWord_natCast _ _ _ h]
  rfl

/-- One `FLIP_X` iteration inside the buffer: the source pixel at `(x, y)` is stored at
`(w - 1 - x, y)`. -/
theorem flipStep_X (origin ret : SDL_Surface) (x y : Nat) (hx : x < origin.w)
    (hy : y < origin.h) (hlen : origin.pixels.length = origin.w * origin.h)
    (hw : ret.w = origin.w) (hrlen : ret.pixels.length = origin.w * origin.h) :
    ∃ v, origin.pixels[y * origin.w + x]? = some v ∧
      flipStep origin flipDirection.FLIP_X x ret y =
        some { ret with pixels := ret.pixels.set (y * origin.w + (origin.w - 1 - x)) v } := by
  have hi : y * origin.w + x < origin.pixels.length := hlen ▸ flat_lt hx hy
  have hj : y * ret.w + (origin.w - 1 - x) < ret.pixels.length := by
    rw [hw, hrlen]; exact flat_lt (by omega) hy
  refine ⟨origin.pixels[y * origin.w + x], List.getElem?_eq_getElem hi, ?_⟩
  unfold flipStep
  rw [get_pixel_nat, List.getElem?_eq_getElem hi]
  simp only [Option.some_bind]
  rw [show ((ret.w : Int) - 1 - (x : Int)) = ((origin.w - 1 - x : Nat) : Int) by rw [hw]; omega]
  rw [put_pixel_nat _ _ _ _ hj, hw]

/-- The `FLIP_X` loops of `flipImage`, run on the blank surface, for a buffer whose
memory has `w * h` words: the result is a buffer of the same size whose cell `(w - 1 - x, y)` is the source's `(x, y)`. -/
theorem flipOnBlank_X_run (origin : SDL_Surface)
    (hlen : origin.pixels.length = origin.w * origin.h) :
    ∃ ret, flipOnBlank origin flipDirection.FLIP_X = some ret ∧ ret.w = origin.w ∧
      ret.h = origin.h ∧ ret.pixels.length = origin.w * origin.h ∧
      ∀ x y, x < origin.w → y < origin.h →
        ret.pixels[y * origin.w + (origin.w - 1 - x)]? = origin.pixels[y * origin.w + x]? := by
  unfold flipOnBlank flipLoops
  have key := foldlM_range_inv
    (fun acc x => (List.range origin.h).foldlM (flipStep origin flipDirection.FLIP_X x) acc)
    (fun k ret => ret.w = origin.w ∧ ret.h = origin.h ∧
      ret.pixels.length = origin.w * origin.h ∧
      ∀ x y, x < k → y < origin.h →
        ret.pixels[y * origin.w + (origin.w - 1 - x)]? = origin.pixels[y * origin.w + x]?)
    origin.w (SDL_CreateRGBSurface origin.w origin.h)
    ⟨rfl, rfl, by simp [SDL_CreateRGBSurface], fun x y hx _ => absurd hx (Nat.not_lt_zero x)⟩
    (by
      intro x ret hx ⟨hw, hh, hl, hdone⟩
      have inner := foldlM_range_inv (flipStep origin flipDirection.FLIP_X x)
        (fun j r => r.w = origin.w ∧ r.h = origin.h ∧
          r.pixels.length = origin.w * origin.h ∧
          (∀ x' y, x' < x → y < origin.h →
            r.pixels[y * origin.w + (origin.w - 1 - x')]? = origin.pixels[y * origin.w + x']?) ∧
          ∀ y, y < j →
            r.pixels[y * origin.w + (origin.w - 1 - x)]? = origin.pixels[y * origin.w + x]?)
        origin.h ret ⟨hw, hh, hl, hdone, fun y hy => absurd hy (Nat.not_lt_zero y)⟩
        (by
          intro y r hy ⟨rw1, rh1, rl1, rdone, rcol⟩
          obtain ⟨v, hv, hstep⟩ := flipStep_X origin r x y hx hy hlen rw1 rl1
          refine ⟨_, hstep, rw1, rh1, by simp [rl1], ?_, ?_⟩
          · intro x' y' hx' hy'
            have hne : y * origin.w + (origin.w - 1 - x) ≠ y' * origin.w + (origin.w - 1 - x') := by
              intro heq
              have := (flat_inj (by omega) (by omega) heq).1
              omega
            simp only [List.getElem?_set_ne hne]
            exact rdone x' y' hx' hy'
          · intro y' hy'
            by_cases hyy : y' = y
            · subst hyy
              have hj : y' * origin.w + (origin.w - 1 - x) < r.pixels.length := by
                rw [rl1]; exact flat_lt (by omega) hy
              simp only [List.getElem?_set_self hj]
              exact hv.symm
            · have hne : y * origin.w + (origin.w - 1 - x) ≠ y' * origin.w + (origin.w - 1 - x) := by
                intro heq
                have := (flat_inj (by omega) (by omega) heq).2
                omega
              simp only [List.getElem?_set_ne hne]
              exact rcol y' (by omega))
      obtain ⟨r, hr, rw1, rh1, rl1, rdone, rcol⟩ := inner
      refine ⟨r, hr, rw1, rh1, rl1, ?_⟩
      intro x' y' hx' hy'
      by_cases hxx : x' = x
      · subst hxx; exact rcol y' hy'
      · exact rdone x' y' (by omega) hy')
  obtain ⟨ret, hret, hw, hh, hl, hall⟩ := key
  exact ⟨ret, hret, hw, hh, hl, fun x y hx hy => hall x y hx hy⟩

/-! ## Claims about `flipImage` -/

/-- C1 (vertical flip), evaluated on the code: for the 2x2 buffer `[[1,2],[3,4]]` the
`FLIP_Y` loops of `flipImage`, run on the blank surface, yield `[[0,4],[2,0]]`, not
`[[3,4],[1,2]]`: the write goes to `(y, ry)` instead of `(x, ry)`, so the cells `(0,0)`
and `(1,1)` keep the blank value and the source pixels `1` and `3` of column 0 are lost.
As `create_blank_surface` returns no value, `flipImage` itself has no defined result. -/
theorem flipImage_FLIP_Y_2x2 :
    flipOnBlank ⟨ARGB8888, 2, 2, 8, [1, 2, 3, 4]⟩ flipDirection.FLIP_Y
      = some ⟨RGB888, 2, 2, 8, [0, 4, 2, 0]⟩ ∧
    flipImage ⟨ARGB8888, 2, 2, 8, [1, 2, 3, 4]⟩ flipDirection.FLIP_Y = none := by
  decide

/-- With the blank surface handed on, the `FLIP_X` loops are the horizontal mirror: for
every source buffer with `w * h` pixels the result holds at `(w-1-x, y)` the pixel the
source holds at `(x, y)`, for all `x < w`, `y < h`; and the 2x2 buffer `[[A,B],[C,D]]`
becomes `[[B,A],[D,C]]`. -/
theorem flipOnBlank_FLIP_X_spec (src : SDL_Surface)
    (hlen : src.pixels.length = src.w * src.h) :
    (∃ ret, flipOnBlank src flipDirection.FLIP_X = some ret ∧
      ∀ x y : Nat, x < src.w → y < src.h →
        ∃ p, get_pixel src x y = some p ∧ get_pixel ret ((src.w : Int) - 1 - x) y = some p) ∧
    ∀ (fmt : SDL_PixelFormat) (A B C D : Nat),
      (flipOnBlank ⟨fmt, 2, 2, 8, [A, B, C, D]⟩ flipDirection.FLIP_X).map (fun r => r.pixels)
        = some [B, A, D, C] := by
  constructor
  · obtain ⟨ret, hret, hw, _, _, hall⟩ := flipOnBlank_X_run src hlen
    refine ⟨ret, hret, ?_⟩
    intro x y hx hy
    have hi : y * src.w + x < src.pixels.length := hlen ▸ flat_lt hx hy
    refine ⟨src.pixels[y * src.w + x], ?_, ?_⟩
    · rw [get_pixel_nat, List.getElem?_eq_getElem hi]
    · rw [show ((src.w : Int) - 1 - (x : Int)) = ((src.w - 1 - x : Nat) : Int) by omega]
      rw [get_pixel_nat, hw, hall x y hx hy, List.getElem?_eq_getElem hi]
  · intro fmt A B C D
    rfl

/-- C2 (horizontal flip), evaluated on the code: `create_blank_surface` reaches its
closing brace without a `return`, so the `ret` of `flipImage` has no defined value and
`flipImage(src, FLIP_X)` has no defined result for the 2x2 buffer `[[1,2],[3,4]]` (nor
for any other); the loops themselves, run on the surface created at line 60, would give
`[[2,1],[4,3]]`. -/
theorem flipImage_FLIP_X_2x2 :
    create_blank_surface 2 2 = none ∧
    flipImage ⟨ARGB8888, 2, 2, 8, [1, 2, 3, 4]⟩ flipDirection.FLIP_X = none ∧
    flipOnBlank ⟨ARGB8888, 2, 2, 8, [1, 2, 3, 4]⟩ flipDirection.FLIP_X
      = some ⟨RGB888, 2, 2, 8, [2, 1, 4, 3]⟩ := by
  decide

/-- C3 (vertical flip twice), evaluated on the code: for the 2x2 buffer `[[1,2],[3,4]]`
two runs of the `FLIP_Y` loops, each on a blank surface, yield `[[0,0],[4,0]]`, not the
buffer itself. As `create_blank_surface` returns no value, two calls of `flipImage` have
no defined result. -/
theorem flipImage_FLIP_Y_twice_2x2 :
    (flipOnBlank ⟨ARGB8888, 2, 2, 8, [1, 2, 3, 4]⟩ flipDirection.FLIP_Y).bind
        (fun r => flipOnBlank r flipDirection.FLIP_Y)
      = some ⟨RGB888, 2, 2, 8, [0, 0, 4, 0]⟩ ∧
    (flipImage ⟨ARGB8888, 2, 2, 8, [1, 2, 3, 4]⟩ flipDirection.FLIP_Y).bind
        (fun r => flipImage r flipDirection.FLIP_Y) = none := by
  decide

/-- With the blank surface handed on, the `FLIP_X` loops are an involution: for every
buffer with `w * h` pixels two runs succeed and give a buffer of the same width and
height with the same pixel memory, hence the same pixel at every coordinate. -/
theorem flipOnBlank_FLIP_X_involution (buf : SDL_Surface)
    (hlen : buf.pixels.length = buf.w * buf.h) :
    ∃ once twice, flipOnBlank buf flipDirection.FLIP_X = some once ∧
      flipOnBlank once flipDirection.FLIP_X = some twice ∧
      twice.w = buf.w ∧ twice.h = buf.h ∧ twice.pixels = buf.pixels ∧
      ∀ x y : Int, get_pixel twice x y = get_pixel buf x y := by
  obtain ⟨r1, h1, w1, hh1, l1, s1⟩ := flipOnBlank_X_run buf hlen
  have hlen1 : r1.pixels.length = r1.w * r1.h := by rw [l1, w1, hh1]
  obtain ⟨r2, h2, w2, hh2, l2, s2⟩ := flipOnBlank_X_run r1 hlen1
  simp only [w1, hh1] at w2 hh2 l2 s2
  have hpx : r2.pixels = buf.pixels := by
    apply List.ext_getElem?
    intro n
    by_cases hn : n < buf.w * buf.h
    · have hw : 0 < buf.w := by
        rcases Nat.eq_zero_or_pos buf.w with h0 | h0
        · rw [h0] at hn; simp at hn
        · exact h0
      have hx : n % buf.w < buf.w := Nat.mod_lt _ hw
      have hy : n / buf.w < buf.h := by
        rw [Nat.div_lt_iff_lt_mul hw, Nat.mul_comm]; exact hn
      have hdecomp : n / buf.w * buf.w + n % buf.w = n := Nat.div_add_mod' n buf.w
      have e2 := s2 (buf.w - 1 - n % buf.w) (n / buf.w) (by omega) hy
      have e1 := s1 (n % buf.w) (n / buf.w) hx hy
      rw [show buf.w - 1 - (buf.w - 1 - n % buf.w) = n % buf.w by omega] at e2
      rw [hdecomp] at e1 e2
      rw [e2, ← e1]
    · rw [List.getElem?_eq_none (by omega), List.getElem?_eq_none (by omega)]
  refine ⟨r1, r2, h1, h2, w2, hh2, hpx, ?_⟩
  intro x y
  unfold get_pixel
  rw [hpx, w2]

/-- C4 (horizontal flip twice), evaluated on the code: as `create_blank_surface` returns
no value, `flipImage(flipImage(buf, FLIP_X), FLIP_X)` has no defined result for the 2x2
buffer `[[1,2],[3,4]]` (nor for any other); two runs of the loops, each on a blank
surface, would give the buffer back. -/
theorem flipImage_FLIP_X_twice_2x2 :
    (flipImage ⟨ARGB8888, 2, 2, 8, [1, 2, 3, 4]⟩ flipDirection.FLIP_X).bind
        (fun r => flipImage r flipDirection.FLIP_X) = none ∧
    (flipOnBlank ⟨ARGB8888, 2, 2, 8, [1, 2, 3, 4]⟩ flipDirection.FLIP_X).bind
        (fun r => flipOnBlank r flipDirection.FLIP_X)
      = some ⟨RGB888, 2, 2, 8, [1, 2, 3, 4]⟩ := by
  decide

/-- The state of an in-place pointwise pass after `k` cells: the first `k` cells hold
`g` of their old value, the others are untouched. -/
theorem getElem?_take_map_drop (g : Nat → Nat) :
    ∀ (l : List Nat) (k : Nat), ((l.take k).map g ++ l.drop k)[k]? = l[k]? := by
  intro l
  induction l with
  | nil => intro k; simp
  | cons a t ih =>
    intro k
    cases k with
    | zero => simp
    | succ k => simpa using ih k

theorem set_take_map_drop (g : Nat → Nat) :
    ∀ (l : List Nat) (k v : Nat), l[k]? = some v →
      ((l.take k).map g ++ l.drop k).set k (g v) = (l.take (k + 1)).map g ++ l.drop (k + 1) := by
  intro l
  induction l with
  | nil => intro k v h; simp at h
  | cons a t ih =>
    intro k v h
    cases k with
    | zero =>
      simp at h
      simp [h]
    | succ k =>
      simp at h
      simpa using ih k v h

/-- A raster pass (rows outside, columns inside) whose step at `(x, y)` replaces the word
at flat index `y * W + x` by `g` of it maps `g` over the whole pixel memory. When the
step runs, that word still has the value `v` it had at the start. -/
theorem raster_map (image : SDL_Surface) (W H : Nat) (g : Nat → Nat)
    (step : Nat → SDL_Surface → Nat → Option SDL_Surface)
    (hlen : image.pixels.length = W * H)
    (hstep : ∀ y x px v, y < H → x < W → px.length = W * H → px[y * W + x]? = some v →
      image.pixels[y * W + x]? = some v →
      step y { image with pixels := px } x
        = some { image with pixels := px.set (y * W + x) (g v) }) :
    (List.range H).foldlM (fun img y => (List.range W).foldlM (step y) img) image
      = some { image with pixels := image.pixels.map g } := by
  have key := foldlM_range_inv
    (fun img y => (List.range W).foldlM (step y) img)
    (fun k img => img = { image with
      pixels := (image.pixels.take (k * W)).map g ++ image.pixels.drop (k * W) })
    H image (by simp)
    (by
      intro y img hy himg
      have inner := foldlM_range_inv (step y)
        (fun j r => r = { image with
          pixels := (image.pixels.take (y * W + j)).map g ++ image.pixels.drop (y * W + j) })
        W img (by simpa using himg)
        (by
          intro x r hx hr
          have hk : y * W + x < image.pixels.length := hlen ▸ flat_lt hx hy
          have hrd : ((image.pixels.take (y * W + x)).map g
              ++ image.pixels.drop (y * W + x))[y * W + x]? = some image.pixels[y * W + x] := by
            rw [getElem?_take_map_drop, List.getElem?_eq_getElem hk]
          have hrun := hstep y x _ _ hy hx (by simp; omega) hrd (List.getElem?_eq_getElem hk)
          refine ⟨_, by rw [hr]; exact hrun, ?_⟩
          rw [set_take_map_drop g _ _ _ (List.getElem?_eq_getElem hk)]
          rfl)
      obtain ⟨r, hr, hP⟩ := inner
      refine ⟨r, hr, ?_⟩
      rw [hP, show y * W + W = (y + 1) * W by ring])
  obtain ⟨r, hr, hP⟩ := key
  rw [hr, hP]
  have : image.pixels.length ≤ H * W := by rw [hlen, Nat.mul_comm]
  simp [List.take_of_length_le this, List.drop_of_length_le this]

/-! ## Channels: bit operations as arithmetic -/

theorem and_mask_shiftRight (p s : Nat) : (p &&& (255 <<< s)) >>> s = p / 2 ^ s % 256 := by
  apply Nat.eq_of_testBit_eq
  intro i
  rw [show (256 : Nat) = 2 ^ 8 by norm_num, Nat.testBit_mod_two_pow, ← Nat.shiftRight_eq_div_pow,
    Nat.testBit_shiftRight, Nat.testBit_shiftRight, Nat.testBit_and, Nat.testBit_shiftLeft,
    show (255 : Nat) = 2 ^ 8 - 1 by norm_num, Nat.testBit_two_pow_sub_one]
  simp [Bool.and_comm]

/-- Channels `SDL_GetRGBA` reads from an ARGB8888 word: the four bytes, alpha in the top byte. -/
theorem SDL_GetRGBA_ARGB8888 (p : Nat) :
    SDL_GetRGBA p ARGB8888
      = (p / 65536 % 256, p / 256 % 256, p % 256, p / 16777216 % 256) := by
  have hr : (p &&& 0x00FF0000) >>> 16 = p / 65536 % 256 := and_mask_shiftRight p 16
  have hg : (p &&& 0x0000FF00) >>> 8 = p / 256 % 256 := and_mask_shiftRight p 8
  have hb : (p &&& 0x000000FF) >>> 0 = p % 256 := by
    rw [show p % 256 = p / 2 ^ 0 % 256 by simp]; exact and_mask_shiftRight p 0
  have ha : (p &&& 0xFF000000) >>> 24 = p / 16777216 % 256 := and_mask_shiftRight p 24
  unfold SDL_GetRGBA ARGB8888
  simp only [hr, hg, hb, ha]
  rfl

/-- A word is the base-256 number of its four bytes. -/
theorem word_bytes (p : Nat) :
    p = p / 16777216 * 16777216 + p / 65536 % 256 * 65536 + p / 256 % 256 * 256 + p % 256 := by
  omega

/-- The packing `x0 | (x1 << 8) | (x2 << 16) | (x3 << 24)` of four bytes is their
base-256 number. -/
theorem pack_low_first (x0 x1 x2 x3 : Nat) (h0 : x0 < 256) (h1 : x1 < 256) (h2 : x2 < 256) :
    x0 ||| (x1 <<< 8) ||| (x2 <<< 16) ||| (x3 <<< 24)
      = x0 + x1 * 256 + x2 * 65536 + x3 * 16777216 := by
  have e1 : x0 ||| (x1 <<< 8) = x0 + x1 * 256 := by
    rw [Nat.or_comm, Nat.shiftLeft_eq, Nat.mul_comm,
      ← Nat.mul_add_lt_is_or (show x0 < 2 ^ 8 by omega)]
    omega
  have e2 : (x0 + x1 * 256) ||| (x2 <<< 16) = x0 + x1 * 256 + x2 * 65536 := by
    rw [Nat.or_comm, Nat.shiftLeft_eq, Nat.mul_comm,
      ← Nat.mul_add_lt_is_or (show x0 + x1 * 256 < 2 ^ 16 by omega)]
    omega
  have e3 : (x0 + x1 * 256 + x2 * 65536) ||| (x3 <<< 24)
      = x0 + x1 * 256 + x2 * 65536 + x3 * 16777216 := by
    rw [Nat.or_comm, Nat.shiftLeft_eq, Nat.mul_comm,
      ← Nat.mul_add_lt_is_or (show x0 + x1 * 256 + x2 * 65536 < 2 ^ 24 by omega)]
    omega
  rw [e1, e2, e3]

/-- The packing `(x3 << 24) | (x2 << 16) | (x1 << 8) | x0` of four bytes is their
base-256 number. -/
theorem pack_high_first (x0 x1 x2 x3 : Nat) (h0 : x0 < 256) (h1 : x1 < 256) (h2 : x2 < 256) :
    (x3 <<< 24) ||| (x2 <<< 16) ||| (x1 <<< 8) ||| x0
      = x0 + x1 * 256 + x2 * 65536 + x3 * 16777216 := by
  rw [← pack_low_first x0 x1 x2 x3 h0 h1 h2]
  apply Nat.eq_of_testBit_eq
  intro i
  simp only [Nat.testBit_or]
  cases Nat.testBit x0 i <;> cases Nat.testBit (x1 <<< 8) i <;>
    cases Nat.testBit (x2 <<< 16) i <;> cases Nat.testBit (x3 <<< 24) i <;> rfl

/-! ## Pointwise passes: `grayscale`, and `blur` with `blur_extent = 0` -/

theorem flat_cast (y W x : Nat) :
    ((y : Int) * ((W : Nat) : Int)) + (x : Int) = ((y * W + x : Nat) : Int) := by
  push_cast; ring

/-- Running `grayscale` on a buffer with `w * h` words replaces every word by its `grayPixel`. -/
theorem grayscale_eq_map (image : SDL_Surface)
    (hlen : image.pixels.length = image.w * image.h) :
    grayscale image
      = some { image with pixels := image.pixels.map (grayPixel image.format) } := by
  unfold grayscale
  apply raster_map image image.w image.h (grayPixel image.format) grayStep hlen
  intro y x px v hy hx hpx hv _
  have hk : y * image.w + x < px.length := hpx ▸ flat_lt hx hy
  simp only [grayStep, flat_cast, readWord_natCast, hv, Option.some_bind,
    writeWord_natCast _ _ _ hk, Option.map_some']

theorem intRange_zero : intRange (-0) 0 = [0] := by decide

theorem blurDivisor_zero : blurDivisor 0 = 1 := by decide

/-- With `blur_extent = 0` the window of `(x, y)` is the cell itself. -/
theorem blurSums_zero (image : SDL_Surface) (x y v : Nat) (hy : y < image.h)
    (hx : x < image.pitch / 4) (hv : image.pixels[y * (image.pitch / 4) + x]? = some v) :
    blurSums 0 image x y = some (blurAdd image.format ⟨0, 0, 0, 0⟩ v) := by
  have hcond : (y : Int) ≥ 0 ∧ (x : Int) ≥ 0 ∧ (y : Int) < (image.h : Int) ∧
      (x : Int) < ((image.pitch / 4 : Nat) : Int) := by
    refine ⟨by omega, by omega, by omega, by omega⟩
  simp only [blurSums, intRange_zero, List.foldlM_cons, List.foldlM_nil, blurCell,
    Int.add_zero, flat_cast, readWord_natCast, hv, Option.map_some',
    bind_pure, Option.some_bind, Option.bind_eq_bind]
  rw [if_pos hcond]

/-- Running `blur` with `blur_extent = 0` on a buffer with `(pitch / 4) * h` words replaces every
word by the colour assembled from its own channels. -/
theorem blur_zero_eq_map (image : SDL_Surface)
    (hlen : image.pixels.length = image.pitch / 4 * image.h) :
    blur 0 image = some { image with
      pixels := image.pixels.map fun v => blurColor 0 (blurAdd image.format ⟨0, 0, 0, 0⟩ v) } := by
  unfold blur
  apply raster_map image (image.pitch / 4) image.h _ (blurStep 0) hlen
  intro y x px v hy hx hpx hv _
  have hk : y * (image.pitch / 4) + x < px.length := hpx ▸ flat_lt hx hy
  have hs := blurSums_zero { image with pixels := px } x y v hy hx hv
  simp only [blurStep, flat_cast, readWord_natCast, hv, Option.some_bind, hs, blurDivisor_zero,
    writeWord_natCast _ _ _ hk, Option.map_some']
  rfl

/-- The two-buffer blur with `blur_extent = 0` computes the same pointwise map. -/
theorem blurSnapshot_zero_eq_map (image : SDL_Surface)
    (hlen : image.pixels.length = image.pitch / 4 * image.h) :
    blurSnapshot 0 image = some { image with
      pixels := image.pixels.map fun v => blurColor 0 (blurAdd image.format ⟨0, 0, 0, 0⟩ v) } := by
  unfold blurSnapshot
  apply raster_map image (image.pitch / 4) image.h _ (blurSnapshotStep 0 image) hlen
  intro y x px v hy hx hpx _ hv
  have hk : y * (image.pitch / 4) + x < px.length := hpx ▸ flat_lt hx hy
  have hs := blurSums_zero image x y v hy hx hv
  simp only [blurSnapshotStep, flat_cast, readWord_natCast, hv, Option.some_bind, hs,
    blurDivisor_zero, writeWord_natCast _ _ _ hk, Option.map_some']
  rfl

/-- The colour `blur` stores with `blur_extent = 0` for an ARGB8888 word `p`: the red
byte of `p` lands in bits 0-7 and the blue byte in bits 16-23. -/
theorem blurColor_zero_ARGB8888 (p : Nat) (hp : p < 2 ^ 32) :
    blurColor 0 (blurAdd ARGB8888 ⟨0, 0, 0, 0⟩ p)
      = p / 65536 % 256 + p / 256 % 256 * 256 + p % 256 * 65536 + p / 16777216 * 16777216 := by
  have h1 : (0 + p / 65536 % 256) % 2 ^ 32 / 1 % 256 = p / 65536 % 256 := by omega
  have h2 : (0 + p / 256 % 256) % 2 ^ 32 / 1 % 256 = p / 256 % 256 := by omega
  have h3 : (0 + p % 256) % 2 ^ 32 / 1 % 256 = p % 256 := by omega
  have h4 : (0 + p / 16777216 % 256) % 2 ^ 32 / 1 % 256 = p / 16777216 := by omega
  simp only [blurColor, blurAdd, SDL_GetRGBA_ARGB8888, blurDivisor_zero, h1, h2, h3, h4]
  exact pack_low_first _ _ _ _ (by omega) (by omega) (by omega)

/-! ## Claims about `blur` -/

/-- C5 (blur with radius 0), evaluated on the code: on the 1x1 ARGB8888 buffer holding
`0xFF010203` (a = 255, r = 1, g = 2, b = 3) `blur` with `blur_extent = 0` stores
`0xFF030201`: the channels are read by the surface format and packed as
`r | g << 8 | b << 16 | a << 24`, which exchanges red and blue. -/
theorem blur_zero_1x1 :
    blur 0 ⟨ARGB8888, 1, 1, 4, [0xFF010203]⟩ = some ⟨ARGB8888, 1, 1, 4, [0xFF030201]⟩ := by
  decide

/-- C6 as stated fails: the 1x1 ARGB8888 buffer whose pixel has channels
`(255, 255, 255, 255)` is uniform, and `blur` with `blur_extent = 1` turns the pixel into
`0x1C1C1C1C` (every channel `255 / 9 = 28`). -/
theorem blur_uniform_changes :
    SDL_GetRGBA 0xFFFFFFFF ARGB8888 = (255, 255, 255, 255) ∧
    blur 1 ⟨ARGB8888, 1, 1, 4, [0xFFFFFFFF]⟩ = some ⟨ARGB8888, 1, 1, 4, [0x1C1C1C1C]⟩ ∧
    blur 1 ⟨ARGB8888, 1, 1, 4, [0xFFFFFFFF]⟩ ≠ some ⟨ARGB8888, 1, 1, 4, [0xFFFFFFFF]⟩ := by
  decide

/-- C6 amended (blur on a uniform buffer, radius 0): for every well-formed ARGB8888
buffer, of any width and height, whose pixels all have the channels `(r, g, b, a)` with
`r = b`, `blur` with `blur_extent = 0` succeeds and leaves every pixel, border and corner
pixels included, unchanged. -/
theorem blur_zero_uniform (image : SDL_Surface) (r g b a : Nat)
    (hwf : image.WellFormed) (hfmt : image.format = ARGB8888)
    (huni : ∀ p ∈ image.pixels, SDL_GetRGBA p image.format = (r, g, b, a))
    (hrb : r = b) :
    blur 0 image = some image := by
  obtain ⟨hpitch, hlen, hword⟩ := hwf
  have hlen2 : image.pixels.length = image.pitch / 4 * image.h := by
    rw [hlen, hpitch]; congr 1; omega
  rw [blur_zero_eq_map image hlen2]
  have hmap : image.pixels.map (fun v => blurColor 0 (blurAdd image.format ⟨0, 0, 0, 0⟩ v))
      = image.pixels := by
    conv_rhs => rw [← List.map_id image.pixels]
    apply List.map_congr_left
    intro p hp
    have hch := huni p hp
    rw [hfmt, SDL_GetRGBA_ARGB8888] at hch
    simp only [Prod.mk.injEq] at hch
    obtain ⟨e1, _, e3, _⟩ := hch
    have hlt := hword p hp
    rw [hfmt, blurColor_zero_ARGB8888 p hlt]
    have hbytes := word_bytes p
    rw [e1, e3, hrb] at hbytes ⊢
    simp only [id]
    generalize p / 256 % 256 = m at hbytes ⊢
    generalize p / 16777216 = n at hbytes ⊢
    omega
  rw [hmap]

/-- Witness of C6 amended: the 2x2 buffer filled with `0x80112211` (r = b = 0x11). -/
theorem blur_zero_uniform_witness :
    blur 0 ⟨ARGB8888, 2, 2, 8, [0x80112211, 0x80112211, 0x80112211, 0x80112211]⟩
      = some ⟨ARGB8888, 2, 2, 8, [0x80112211, 0x80112211, 0x80112211, 0x80112211]⟩ :=
  blur_zero_uniform ⟨ARGB8888, 2, 2, 8, [0x80112211, 0x80112211, 0x80112211, 0x80112211]⟩
    0x11 0x22 0x11 0x80 (by decide) rfl (by decide) rfl

/-- C7 as stated fails: on the 2x1 ARGB8888 buffer `[0x5A5A5A5A, 0]` with
`blur_extent = 1`, `blur` yields `[0x0A0A0A0A, 0x01010101]` (the second pixel averages the
already blurred first pixel) while the evaluation against a snapshot yields
`[0x0A0A0A0A, 0x0A0A0A0A]`. -/
theorem blur_ne_blurSnapshot :
    blur 1 ⟨ARGB8888, 2, 1, 8, [0x5A5A5A5A, 0]⟩
        = some ⟨ARGB8888, 2, 1, 8, [0x0A0A0A0A, 0x01010101]⟩ ∧
    blurSnapshot 1 ⟨ARGB8888, 2, 1, 8, [0x5A5A5A5A, 0]⟩
        = some ⟨ARGB8888, 2, 1, 8, [0x0A0A0A0A, 0x0A0A0A0A]⟩ ∧
    blur 1 ⟨ARGB8888, 2, 1, 8, [0x5A5A5A5A, 0]⟩
        ≠ blurSnapshot 1 ⟨ARGB8888, 2, 1, 8, [0x5A5A5A5A, 0]⟩ := by
  decide

/-- C7 amended (blur against a snapshot, radius 0): for every well-formed buffer, `blur`
with `blur_extent = 0` succeeds and produces exactly the buffer obtained by evaluating
the per-pixel computation for every pixel against an unmodified snapshot of the input. -/
theorem blur_zero_eq_blurSnapshot (image : SDL_Surface) (hwf : image.WellFormed) :
    ∃ out, blur 0 image = some out ∧ blurSnapshot 0 image = some out := by
  obtain ⟨hpitch, hlen, _⟩ := hwf
  have hlen2 : image.pixels.length = image.pitch / 4 * image.h := by
    rw [hlen, hpitch]; congr 1; omega
  exact ⟨_, blur_zero_eq_map image hlen2, blurSnapshot_zero_eq_map image hlen2⟩

/-- Witness of C7 amended on the 2x1 buffer `[0x5A5A5A5A, 0x01020304]`. -/
theorem blur_zero_eq_blurSnapshot_witness :
    ∃ out, blur 0 ⟨ARGB8888, 2, 1, 8, [0x5A5A5A5A, 0x01020304]⟩ = some out ∧
      blurSnapshot 0 ⟨ARGB8888, 2, 1, 8, [0x5A5A5A5A, 0x01020304]⟩ = some out :=
  blur_zero_eq_blurSnapshot ⟨ARGB8888, 2, 1, 8, [0x5A5A5A5A, 0x01020304]⟩ (by decide)

/-! ## Grayscale: the stored word and the luminance of gray pixels -/

theorem luminance_lt (r g b : Nat) : luminance r g b < 256 :=
  Nat.mod_lt _ (by norm_num)

theorem grayWord_eq (v : Nat) (hv : v < 256) :
    grayWord v = v + v * 256 + v * 65536 + 255 * 16777216 :=
  pack_high_first v v v 0xFF hv hv hv

theorem grayWord_bytes (v : Nat) (hv : v < 256) :
    (v + v * 256 + v * 65536 + 255 * 16777216) / 65536 % 256 = v ∧
    (v + v * 256 + v * 65536 + 255 * 16777216) / 256 % 256 = v ∧
    (v + v * 256 + v * 65536 + 255 * 16777216) % 256 = v ∧
    (v + v * 256 + v * 65536 + 255 * 16777216) / 16777216 % 256 = 255 := by
  refine ⟨?_, ?_, ?_, ?_⟩
  · have h : (v + v * 256 + v * 65536 + 255 * 16777216) / 65536 = v + 255 * 256 := by omega
    rw [h]; omega
  · have h : (v + v * 256 + v * 65536 + 255 * 16777216) / 256 = v + v * 256 + 255 * 65536 := by
      omega
    rw [h]; omega
  · omega
  · have h : (v + v * 256 + v * 65536 + 255 * 16777216) / 16777216 = 255 := by omega
    rw [h]

/-- In the ARGB8888 layout the word `grayscale` stores has alpha 255 and red, green and
blue all equal to `v`. -/
theorem SDL_GetRGBA_grayWord (v : Nat) (hv : v < 256) :
    SDL_GetRGBA (grayWord v) ARGB8888 = (v, v, v, 255) := by
  obtain ⟨h1, h2, h3, h4⟩ := grayWord_bytes v hv
  rw [SDL_GetRGBA_ARGB8888, grayWord_eq v hv, h1, h2, h3, h4]

theorem grayValue_lt (format : SDL_PixelFormat) (pixel : Nat) :
    grayValue format pixel < 256 :=
  luminance_lt _ _ _

theorem grayPixel_grayWord (v : Nat) (hv : v < 256) :
    grayPixel ARGB8888 (grayWord v) = grayWord (luminance v v v) := by
  simp only [grayPixel, grayValue, SDL_GetRGBA_grayWord v hv]

set_option maxRecDepth 100000 in
theorem luminance_gray_check :
    (List.range 256).all
      (fun v => luminance v v v == if v ∈ luminanceDrops then v - 1 else v) = true := by
  decide

/-- The `float` luminance of a gray pixel `(v, v, v)`, narrowed to `Uint8`: `v` itself,
except for the eleven values of `luminanceDrops`, which give `v - 1`. -/
theorem luminance_gray (v : Nat) (hv : v < 256) :
    luminance v v v = if v ∈ luminanceDrops then v - 1 else v :=
  beq_iff_eq.mp (List.all_eq_true.mp luminance_gray_check v (List.mem_range.mpr hv))

theorem luminanceDrops_pred : ∀ v ∈ luminanceDrops, v - 1 ∉ luminanceDrops := by
  decide

/-- A second narrowing changes nothing: the luminance of the gray pixel that `grayscale`
produced from a gray pixel is that pixel's gray value. -/
theorem luminance_gray_twice (v : Nat) (hv : v < 256) :
    luminance (luminance v v v) (luminance v v v) (luminance v v v) = luminance v v v := by
  rw [luminance_gray v hv]
  split
  · next hmem =>
    rw [luminance_gray (v - 1) (by omega), if_neg (luminanceDrops_pred v hmem)]
  · next hmem =>
    rw [luminance_gray v hv, if_neg hmem]

/-- What `get_pixel` returns after a pointwise pass `g` over the pixel memory. -/
theorem get_pixel_map (image : SDL_Surface) (g : Nat → Nat) (x y : Int) :
    get_pixel { image with pixels := image.pixels.map g } x y
      = (get_pixel image x y).map g := by
  unfold get_pixel readWord
  split
  · simp [List.getElem?_map]
  · rfl

theorem get_pixel_in_range (image : SDL_Surface)
    (hlen : image.pixels.length = image.w * image.h) (x y : Nat) (hx : x < image.w)
    (hy : y < image.h) : ∃ p, get_pixel image x y = some p := by
  have hi : y * image.w + x < image.pixels.length := hlen ▸ flat_lt hx hy
  exact ⟨image.pixels[y * image.w + x], by rw [get_pixel_nat, List.getElem?_eq_getElem hi]⟩

/-! ## Claims about `grayscale` -/

/-- C8 (grayscale output shape): for every buffer with `w * h` pixels `grayscale`
succeeds and keeps width and height; at every position `(x, y)` the stored word is
`0xFF000000 | (v << 16) | (v << 8) | v` for some `v` in 0..255, that is alpha 255 and
red = green = blue = `v` in the ARGB8888 layout, whatever the input alpha; and it is a
function (`grayPixel`) of the input pixel at the same position alone. -/
theorem grayscale_output_shape (image : SDL_Surface)
    (hlen : image.pixels.length = image.w * image.h) :
    ∃ out, grayscale image = some out ∧ out.w = image.w ∧ out.h = image.h ∧
      ∀ x y : Nat, x < image.w → y < image.h →
        ∃ p v, get_pixel image x y = some p ∧ v < 256 ∧
          get_pixel out x y = some (0xFF000000 ||| (v <<< 16) ||| (v <<< 8) ||| v) ∧
          SDL_GetRGBA (0xFF000000 ||| (v <<< 16) ||| (v <<< 8) ||| v) ARGB8888
            = (v, v, v, 255) ∧
          get_pixel out x y = some (grayPixel image.format p) := by
  refine ⟨_, grayscale_eq_map image hlen, rfl, rfl, ?_⟩
  intro x y hx hy
  obtain ⟨p, hp⟩ := get_pixel_in_range image hlen x y hx hy
  refine ⟨p, grayValue image.format p, hp, grayValue_lt _ _, ?_, ?_, ?_⟩
  · rw [get_pixel_map, hp]; rfl
  · exact SDL_GetRGBA_grayWord _ (grayValue_lt _ _)
  · rw [get_pixel_map, hp]; rfl

/-- Witness of C8 on the 2x1 buffer `[0x80FF0000, 0x0000FF00]`. -/
theorem grayscale_output_shape_witness :
    ∃ out, grayscale ⟨ARGB8888, 2, 1, 8, [0x80FF0000, 0x0000FF00]⟩ = some out ∧
      out.w = 2 ∧ out.h = 1 ∧
      ∀ x y : Nat, x < 2 → y < 1 →
        ∃ p v, get_pixel ⟨ARGB8888, 2, 1, 8, [0x80FF0000, 0x0000FF00]⟩ x y = some p ∧ v < 256 ∧
          get_pixel out x y = some (0xFF000000 ||| (v <<< 16) ||| (v <<< 8) ||| v) ∧
          SDL_GetRGBA (0xFF000000 ||| (v <<< 16) ||| (v <<< 8) ||| v) ARGB8888
            = (v, v, v, 255) ∧
          get_pixel out x y = some (grayPixel ARGB8888 p) :=
  grayscale_output_shape ⟨ARGB8888, 2, 1, 8, [0x80FF0000, 0x0000FF00]⟩ (by decide)

/-- C9 as stated fails: the ARGB8888 pixel `0xFF25231E` (r = 37, g = 35, b = 30) has gray
value 35, so one `grayscale` pass stores `0xFF232323`; the `float` luminance of
`(35, 35, 35)` is just below 35 and is narrowed to 34, so a second pass stores
`0xFF222222`. Twice is not once, and the gray pixel `(35, 35, 35, 255)` is not mapped to
itself. -/
theorem grayscale_twice_ne_once :
    grayscale ⟨ARGB8888, 1, 1, 4, [0xFF25231E]⟩ = some ⟨ARGB8888, 1, 1, 4, [0xFF232323]⟩ ∧
    grayscale ⟨ARGB8888, 1, 1, 4, [0xFF232323]⟩ = some ⟨ARGB8888, 1, 1, 4, [0xFF222222]⟩ ∧
    (grayscale ⟨ARGB8888, 1, 1, 4, [0xFF25231E]⟩).bind grayscale
      ≠ grayscale ⟨ARGB8888, 1, 1, 4, [0xFF25231E]⟩ := by
  decide

/-- C9 amended (grayscale stabilises after two passes): for every ARGB8888 buffer with
`w * h` pixels, `grayscale` applied three times yields exactly the buffer of two
applications, and two applications yield the buffer of one when no pixel's gray value is
one of 35, 41, 70, 73, 82, 140, 146, 164, 189, 207, 225; for every `v` in 0..255 the
pixel `(r = g = b = v, a = 255)` is mapped to itself, except for those eleven values,
which are mapped to `(v-1, v-1, v-1, 255)` (luminance evaluated in `float`, narrowed to
8 bits by truncation). -/
theorem grayscale_stabilises (image : SDL_Surface)
    (hlen : image.pixels.length = image.w * image.h) (hfmt : image.format = ARGB8888) :
    (∃ once twice, grayscale image = some once ∧ grayscale once = some twice ∧
      grayscale twice = some twice ∧
      ((∀ p ∈ image.pixels, grayValue image.format p ∉ luminanceDrops) → twice = once)) ∧
    ∀ v, v < 256 →
      grayPixel ARGB8888 (grayWord v) = grayWord (if v ∈ luminanceDrops then v - 1 else v) := by
  constructor
  · have h1 := grayscale_eq_map image hlen
    have h2 := grayscale_eq_map { image with pixels := image.pixels.map (grayPixel image.format) }
      (by simpa using hlen)
    have h3 := grayscale_eq_map
      { image with
        pixels := (image.pixels.map (grayPixel image.format)).map (grayPixel image.format) }
      (by simpa using hlen)
    have hgg : ∀ p, grayPixel image.format (grayPixel image.format p)
        = grayWord (luminance (grayValue image.format p) (grayValue image.format p)
            (grayValue image.format p)) := by
      intro p
      rw [hfmt]
      exact grayPixel_grayWord _ (grayValue_lt _ _)
    refine ⟨_, _, h1, h2, ?_, ?_⟩
    · rw [h3]
      congr 2
      simp only [List.map_map]
      apply List.map_congr_left
      intro p _
      simp only [Function.comp]
      rw [hgg p, hfmt, grayPixel_grayWord _ (luminance_lt _ _ _),
        luminance_gray_twice _ (grayValue_lt _ _)]
    · intro hgood
      congr 1
      simp only [List.map_map]
      apply List.map_congr_left
      intro p hp
      simp only [Function.comp]
      rw [hgg p, luminance_gray _ (grayValue_lt _ _), if_neg (hgood p hp)]
      rfl
  · intro v hv
    rw [grayPixel_grayWord v hv, luminance_gray v hv]

/-- Witness of C9 amended on the 1x1 buffer `[0xFF25231E]`. -/
theorem grayscale_stabilises_witness :
    ∃ once twice, grayscale ⟨ARGB8888, 1, 1, 4, [0xFF25231E]⟩ = some once ∧
      grayscale once = some twice ∧ grayscale twice = some twice ∧
      ((∀ p ∈ [0xFF25231E], grayValue ARGB8888 p ∉ luminanceDrops) → twice = once) :=
  (grayscale_stabilises ⟨ARGB8888, 1, 1, 4, [0xFF25231E]⟩ (by decide) rfl).1

/-- C10 (grayscale fixed point): the truncated `float` luminance of `(128, 128, 128)` is
128, the ARGB8888 word `0xFF808080` has the channels r = g = b = 128, a = 255, and in
every ARGB8888 buffer with `w * h` pixels `grayscale` maps every pixel `0xFF808080` to
exactly `0xFF808080`. -/
theorem grayscale_fixed_point_128 (image : SDL_Surface)
    (hlen : image.pixels.length = image.w * image.h) (hfmt : image.format = ARGB8888) :
    luminance 128 128 128 = 128 ∧
    SDL_GetRGBA 0xFF808080 ARGB8888 = (128, 128, 128, 255) ∧
    ∃ out, grayscale image = some out ∧
      ∀ x y : Nat, x < image.w → y < image.h →
        get_pixel image x y = some 0xFF808080 → get_pixel out x y = some 0xFF808080 := by
  refine ⟨by decide, by decide, _, grayscale_eq_map image hlen, ?_⟩
  intro x y _ _ hp
  rw [get_pixel_map, hp, hfmt]
  have h : grayPixel ARGB8888 0xFF808080 = 0xFF808080 := by decide
  simp only [Option.map_some', h]

/-- Witness of C10 on the 2x1 buffer `[0xFF808080, 0x00000000]`. -/
theorem grayscale_fixed_point_128_witness :
    luminance 128 128 128 = 128 ∧
    SDL_GetRGBA 0xFF808080 ARGB8888 = (128, 128, 128, 255) ∧
    ∃ out, grayscale ⟨ARGB8888, 2, 1, 8, [0xFF808080, 0]⟩ = some out ∧
      ∀ x y : Nat, x < 2 → y < 1 →
        get_pixel ⟨ARGB8888, 2, 1, 8, [0xFF808080, 0]⟩ x y = some 0xFF808080 →
          get_pixel out x y = some 0xFF808080 :=
  grayscale_fixed_point_128 ⟨ARGB8888, 2, 1, 8, [0xFF808080, 0]⟩ (by decide) rfl

/-! ## Claims about `get_pixel` and `put_pixel` -/

/-- C12 (get/put round trip and frame): for every buffer with `w * h` pixels, every
in-range `(x, y)` and every pixel `p`, `put_pixel(buf, x, y, p)` succeeds; afterwards
`get_pixel(buf, x, y)` returns `p`, `get_pixel` at every other in-range coordinate
returns what it returned before, and width and height are unchanged. -/
theorem put_get_round_trip (s : SDL_Surface) (hlen : s.pixels.length = s.w * s.h)
    (x y : Nat) (hx : x < s.w) (hy : y < s.h) (p : Nat) :
    ∃ s', put_pixel s x y p = some s' ∧ get_pixel s' x y = some p ∧
      (∀ x' y' : Nat, x' < s.w → y' < s.h → (x', y') ≠ (x, y) →
        get_pixel s' x' y' = get_pixel s x' y') ∧
      s'.w = s.w ∧ s'.h = s.h := by
  have hi : y * s.w + x < s.pixels.length := hlen ▸ flat_lt hx hy
  refine ⟨_, put_pixel_nat s x y p hi, ?_, ?_, rfl, rfl⟩
  · rw [get_pixel_nat]
    exact List.getElem?_set_self hi
  · intro x' y' hx' _ hne
    rw [get_pixel_nat, get_pixel_nat]
    have hidx : y * s.w + x ≠ y' * s.w + x' := by
      intro heq
      obtain ⟨e1, e2⟩ := flat_inj hx hx' heq
      exact hne (by rw [e1, e2])
    exact List.getElem?_set_ne hidx

/-- Witness of C12 on the 2x2 buffer `[[1,2],[3,4]]`, writing 9 at `(1, 0)`. -/
theorem put_get_round_trip_witness :
    ∃ s', put_pixel ⟨ARGB8888, 2, 2, 8, [1, 2, 3, 4]⟩ (1 : Nat) (0 : Nat) 9 = some s' ∧
      get_pixel s' (1 : Nat) (0 : Nat) = some 9 ∧
      (∀ x' y' : Nat, x' < 2 → y' < 2 → (x', y') ≠ (1, 0) →
        get_pixel s' x' y' = get_pixel ⟨ARGB8888, 2, 2, 8, [1, 2, 3, 4]⟩ x' y') ∧
      s'.w = 2 ∧ s'.h = 2 :=
  put_get_round_trip ⟨ARGB8888, 2, 2, 8, [1, 2, 3, 4]⟩ (by decide) 1 0 (by decide) (by decide) 9

/-! ## Flip: what the `FLIP_Y` loops compute -/

/-- The flat index `ry * w + y` that the `FLIP_Y` branch writes stays below `w * h`, also
when `y` is not a column of the buffer (`h > w`). -/
theorem flipY_index_lt {w h y : Nat} (hw : 0 < w) (hy : y < h) :
    (h - 1 - y) * w + y < w * h := by
  have h1 : y ≤ y * w := Nat.le_mul_of_pos_right y hw
  calc (h - 1 - y) * w + y ≤ (h - 1 - y) * w + y * w := by omega
    _ = (h - 1 - y + y) * w := by ring
    _ = (h - 1) * w := by congr 1; omega
    _ < h * w := (Nat.mul_lt_mul_right hw).2 (by omega)
    _ = w * h := Nat.mul_comm h w

/-- For a buffer at least 2 wide, different rows `y` give different indices `ry * w + y`. -/
theorem flipY_index_inj {w h y y' : Nat} (hw : 2 ≤ w) (hy : y < h) (hy' : y' < h)
    (heq : (h - 1 - y) * w + y = (h - 1 - y') * w + y') : y = y' := by
  rcases Nat.lt_trichotomy y y' with hlt | heq' | hgt
  · exfalso
    have e : h - 1 - y = (h - 1 - y') + (y' - y) := by omega
    rw [e, Nat.add_mul] at heq
    have h2 : (y' - y) * 2 ≤ (y' - y) * w := Nat.mul_le_mul_left _ hw
    omega
  · exact heq'
  · exfalso
    have e : h - 1 - y' = (h - 1 - y) + (y - y') := by omega
    rw [e, Nat.add_mul] at heq
    have h2 : (y - y') * 2 ≤ (y - y') * w := Nat.mul_le_mul_left _ hw
    omega

/-- One `FLIP_Y` iteration inside the buffer: the source pixel at `(x, y)` is stored at
flat index `(h - 1 - y) * w + y`, the cell `(y, ry)` of `put_pixel(ret, y, ry, pixel)`. -/
theorem flipStep_Y (origin ret : SDL_Surface) (x y : Nat) (hx : x < origin.w)
    (hy : y < origin.h) (hlen : origin.pixels.length = origin.w * origin.h)
    (hw : ret.w = origin.w) (hh : ret.h = origin.h)
    (hrlen : ret.pixels.length = origin.w * origin.h) :
    ∃ v, origin.pixels[y * origin.w + x]? = some v ∧
      flipStep origin flipDirection.FLIP_Y x ret y =
        some { ret with pixels := ret.pixels.set ((origin.h - 1 - y) * origin.w + y) v } := by
  have hi : y * origin.w + x < origin.pixels.length := hlen ▸ flat_lt hx hy
  have hj : (origin.h - 1 - y) * ret.w + y < ret.pixels.length := by
    rw [hw, hrlen]; exact flipY_index_lt (by omega) hy
  refine ⟨origin.pixels[y * origin.w + x], List.getElem?_eq_getElem hi, ?_⟩
  unfold flipStep
  rw [get_pixel_nat, List.getElem?_eq_getElem hi]
  simp only [Option.some_bind]
  rw [show ((ret.h : Int) - 1 - (y : Int)) = ((origin.h - 1 - y : Nat) : Int) by rw [hh]; omega]
  rw [put_pixel_nat _ _ _ _ hj, hw]

/-- The `FLIP_Y` loops of `flipImage`, run on the blank surface, for a buffer with `w * h`
words: they succeed for every
width and height; every flat index that is not `(h - 1 - y) * w + y` for a row `y` keeps
the blank value; and when `w ≥ 2` the index of row `y` ends up with the source pixel
`(w - 1, y)` of the last column, written by the last pass of the outer loop. -/
theorem flipOnBlank_Y_run (origin : SDL_Surface)
    (hlen : origin.pixels.length = origin.w * origin.h) :
    ∃ ret, flipOnBlank origin flipDirection.FLIP_Y = some ret ∧ ret.w = origin.w ∧
      ret.h = origin.h ∧ ret.pixels.length = origin.w * origin.h ∧
      (∀ i, (∀ y, y < origin.h → i ≠ (origin.h - 1 - y) * origin.w + y) →
        ret.pixels[i]? = (SDL_CreateRGBSurface origin.w origin.h).pixels[i]?) ∧
      (2 ≤ origin.w → ∀ y, y < origin.h →
        ret.pixels[(origin.h - 1 - y) * origin.w + y]?
          = origin.pixels[y * origin.w + (origin.w - 1)]?) := by
  unfold flipOnBlank flipLoops
  have key := foldlM_range_inv
    (fun acc x => (List.range origin.h).foldlM (flipStep origin flipDirection.FLIP_Y x) acc)
    (fun k ret => ret.w = origin.w ∧ ret.h = origin.h ∧
      ret.pixels.length = origin.w * origin.h ∧
      (∀ i, (∀ y, y < origin.h → i ≠ (origin.h - 1 - y) * origin.w + y) →
        ret.pixels[i]? = (SDL_CreateRGBSurface origin.w origin.h).pixels[i]?) ∧
      (2 ≤ origin.w → 0 < k → ∀ y, y < origin.h →
        ret.pixels[(origin.h - 1 - y) * origin.w + y]?
          = origin.pixels[y * origin.w + (k - 1)]?))
    origin.w (SDL_CreateRGBSurface origin.w origin.h)
    ⟨rfl, rfl, by simp [SDL_CreateRGBSurface], fun _ _ => rfl,
      fun _ hk => absurd hk (Nat.lt_irrefl 0)⟩
    (by
      intro x ret hx ⟨hw, hh, hl, hblank, _⟩
      have inner := foldlM_range_inv (flipStep origin flipDirection.FLIP_Y x)
        (fun j r => r.w = origin.w ∧ r.h = origin.h ∧
          r.pixels.length = origin.w * origin.h ∧
          (∀ i, (∀ y, y < origin.h → i ≠ (origin.h - 1 - y) * origin.w + y) →
            r.pixels[i]? = (SDL_CreateRGBSurface origin.w origin.h).pixels[i]?) ∧
          (2 ≤ origin.w → ∀ y, y < j →
            r.pixels[(origin.h - 1 - y) * origin.w + y]? = origin.pixels[y * origin.w + x]?))
        origin.h ret ⟨hw, hh, hl, hblank, fun _ y hy => absurd hy (Nat.not_lt_zero y)⟩
        (by
          intro y r hy ⟨rw1, rh1, rl1, rblank, rcol⟩
          obtain ⟨v, hv, hstep⟩ := flipStep_Y origin r x y hx hy hlen rw1 rh1 rl1
          refine ⟨_, hstep, rw1, rh1, by simp [rl1], ?_, ?_⟩
          · intro i hi
            have hne : (origin.h - 1 - y) * origin.w + y ≠ i := fun e => hi y hy e.symm
            simp only [List.getElem?_set_ne hne]
            exact rblank i hi
          · intro hw2 y' hy'
            by_cases hyy : y' = y
            · subst hyy
              have hj : (origin.h - 1 - y') * origin.w + y' < r.pixels.length := by
                rw [rl1]; exact flipY_index_lt (by omega) hy
              simp only [List.getElem?_set_self hj]
              exact hv.symm
            · have hne : (origin.h - 1 - y) * origin.w + y
                  ≠ (origin.h - 1 - y') * origin.w + y' := by
                intro heq
                exact hyy (flipY_index_inj hw2 hy (by omega) heq).symm
              simp only [List.getElem?_set_ne hne]
              exact rcol hw2 y' (by omega))
      obtain ⟨r, hr, rw1, rh1, rl1, rblank, rcol⟩ := inner
      refine ⟨r, hr, rw1, rh1, rl1, rblank, ?_⟩
      intro hw2 _ y hy
      rw [Nat.add_sub_cancel]
      exact rcol hw2 y hy)
  obtain ⟨ret, hret, hw, hh, hl, hblank, hcol⟩ := key
  exact ⟨ret, hret, hw, hh, hl, hblank, fun hw2 y hy => hcol hw2 (by omega) y hy⟩

/-- Run on the blank surface, the loops of `flipImage` succeed in both directions on a
buffer with `w * h` words and give a buffer of the same width and height with `w * h`
words. -/
theorem flipOnBlank_run (origin : SDL_Surface) (dir : flipDirection)
    (hlen : origin.pixels.length = origin.w * origin.h) :
    ∃ ret, flipOnBlank origin dir = some ret ∧ ret.w = origin.w ∧ ret.h = origin.h ∧
      ret.pixels.length = origin.w * origin.h := by
  cases dir with
  | FLIP_X =>
    obtain ⟨ret, h1, h2, h3, h4, _⟩ := flipOnBlank_X_run origin hlen
    exact ⟨ret, h1, h2, h3, h4⟩
  | FLIP_Y =>
    obtain ⟨ret, h1, h2, h3, h4, _⟩ := flipOnBlank_Y_run origin hlen
    exact ⟨ret, h1, h2, h3, h4⟩

/-- A loop over a pair state whose body leaves the first component alone is the loop
over the second component. -/
theorem foldlM_pair_snd {α β σ : Type} (o : α) (f : σ → β → Option σ)
    (fM : α × σ → β → Option (α × σ))
    (h : ∀ s a, fM (o, s) a = (f s a).map fun r => (o, r)) :
    ∀ (l : List β) (s : σ), l.foldlM fM (o, s) = (l.foldlM f s).map fun r => (o, r) := by
  intro l
  induction l with
  | nil => intro s; rfl
  | cons a t ih =>
    intro s
    rw [List.foldlM_cons, List.foldlM_cons, h]
    cases f s a with
    | none => rfl
    | some s1 => exact ih s1

theorem flipStepMem_eq (origin ret : SDL_Surface) (dir : flipDirection) (x y : Nat) :
    flipStepMem dir x (origin, ret) y
      = (flipStep origin dir x ret y).map fun r => (origin, r) := by
  unfold flipStepMem flipStep
  cases get_pixel origin x y with
  | none => rfl
  | some pixel => cases dir <;> rfl

/-- The loops with both surfaces in the state are the loops of `flipImage`, paired with
the unchanged source. -/
theorem flipLoopsMem_eq (origin ret : SDL_Surface) (dir : flipDirection) :
    flipLoopsMem origin ret dir = (flipLoops origin ret dir).map fun r => (origin, r) := by
  unfold flipLoopsMem flipLoops
  apply foldlM_pair_snd
  intro s x
  exact foldlM_pair_snd origin _ _ (fun r y => flipStepMem_eq origin r dir x y) _ s

/-! ## Further claims about `flipImage` -/

/-- With the blank surface handed on, the loops leave the source alone: for every source
buffer with `w * h` pixels and either direction they succeed and give a buffer with the
width and height of the source, and the source surface after the loops is the source
surface before them. -/
theorem flipOnBlank_frame (origin : SDL_Surface) (dir : flipDirection)
    (hlen : origin.pixels.length = origin.w * origin.h) :
    ∃ ret, flipOnBlank origin dir = some ret ∧
      flipLoopsMem origin (SDL_CreateRGBSurface origin.w origin.h) dir = some (origin, ret) ∧
      ret.w = origin.w ∧ ret.h = origin.h := by
  obtain ⟨ret, hret, hw, hh, _⟩ := flipOnBlank_run origin dir hlen
  refine ⟨ret, hret, ?_, hw, hh⟩
  rw [flipLoopsMem_eq]
  unfold flipOnBlank at hret
  rw [hret]
  rfl

/-- C14 (flip leaves its input alone), evaluated on the code: as `create_blank_surface`
returns no value, `flipImage` returns no defined buffer for the 2x2 buffer
`[[1,2],[3,4]]` (nor for any other), so it does not return one of the source's width and
height; the loops, run on the surface created at line 60, would return a 2x2 buffer and
leave the source as it is. -/
theorem flipImage_frame_2x2 :
    flipImage ⟨ARGB8888, 2, 2, 8, [1, 2, 3, 4]⟩ flipDirection.FLIP_X = none ∧
    flipImageMem ⟨ARGB8888, 2, 2, 8, [1, 2, 3, 4]⟩ flipDirection.FLIP_X = none ∧
    flipLoopsMem ⟨ARGB8888, 2, 2, 8, [1, 2, 3, 4]⟩ (SDL_CreateRGBSurface 2 2)
        flipDirection.FLIP_X
      = some (⟨ARGB8888, 2, 2, 8, [1, 2, 3, 4]⟩, ⟨RGB888, 2, 2, 8, [2, 1, 4, 3]⟩) := by
  decide

/-- What the `FLIP_Y` loops write once the blank surface is handed on: for every source
with `w * h` pixels and `w ≥ 2` they succeed; for each row `y < h` the result holds at
flat index
`(h-1-y) * w + y` the source pixel at `(w-1, y)`; every other flat index below `w * h`
holds the blank value 0; so a cell that differs from the blank surface is one of those
at most `h` indices. -/
theorem flipOnBlank_FLIP_Y_writes (src : SDL_Surface)
    (hlen : src.pixels.length = src.w * src.h) (hw : 2 ≤ src.w) :
    ∃ ret, flipOnBlank src flipDirection.FLIP_Y = some ret ∧
      (∀ y, y < src.h → ∃ p, get_pixel src ((src.w : Int) - 1) y = some p ∧
        ret.pixels[(src.h - 1 - y) * src.w + y]? = some p) ∧
      (∀ i, i < src.w * src.h → (∀ y, y < src.h → i ≠ (src.h - 1 - y) * src.w + y) →
        ret.pixels[i]? = some 0) ∧
      (∀ i, ret.pixels[i]? ≠ (SDL_CreateRGBSurface src.w src.h).pixels[i]? →
        ∃ y, y < src.h ∧ i = (src.h - 1 - y) * src.w + y) := by
  obtain ⟨ret, hret, _, _, _, hblank, hcol⟩ := flipOnBlank_Y_run src hlen
  refine ⟨ret, hret, ?_, ?_, ?_⟩
  · intro y hy
    have hi : y * src.w + (src.w - 1) < src.pixels.length := hlen ▸ flat_lt (by omega) hy
    refine ⟨src.pixels[y * src.w + (src.w - 1)], ?_, ?_⟩
    · rw [show ((src.w : Int) - 1) = ((src.w - 1 : Nat) : Int) by omega, get_pixel_nat,
        List.getElem?_eq_getElem hi]
    · rw [hcol hw y hy, List.getElem?_eq_getElem hi]
  · intro i hi hne
    rw [hblank i hne]
    simp [SDL_CreateRGBSurface, hi]
  · intro i hdiff
    by_contra hcon
    push_neg at hcon
    exact hdiff (hblank i hcon)

/-- C17 (what `FLIP_Y` writes), evaluated on the code: as `create_blank_surface` returns
no value, `flipImage(src, FLIP_Y)` has no defined result for the 3x2 buffer
`[[1,2,3],[4,5,6]]` (nor for any other); the loops, run on the surface created at line
60, would store the last column, 3 and 6, at the flat indices 3 and 1 and leave the
other cells blank. -/
theorem flipImage_FLIP_Y_3x2 :
    flipImage ⟨ARGB8888, 3, 2, 12, [1, 2, 3, 4, 5, 6]⟩ flipDirection.FLIP_Y = none ∧
    flipOnBlank ⟨ARGB8888, 3, 2, 12, [1, 2, 3, 4, 5, 6]⟩ flipDirection.FLIP_Y
      = some ⟨RGB888, 3, 2, 12, [0, 6, 0, 3, 0, 0]⟩ := by
  decide

/-- The loops stay inside the pixel arrays once the blank surface is handed on: for every
buffer with `w * h` pixels, any width and height (zero and `h > w` included) and either
direction, they run without an access outside the two pixel arrays; for `x < w`, `y < h` the flat index read,
`y * w + x`, and the flat indices written, `rx + y * w` and `ry * w + y`, are below
`w * h`; and when `w = 0` or `h = 0` the blank surface is returned whatever the pixel
memory of the source is, so that nothing is read or written. -/
theorem flipOnBlank_in_bounds (origin : SDL_Surface) (dir : flipDirection)
    (hlen : origin.pixels.length = origin.w * origin.h) :
    (∃ ret, flipOnBlank origin dir = some ret) ∧
    (∀ x y, x < origin.w → y < origin.h →
      y * origin.w + x < origin.w * origin.h ∧
      (origin.w - 1 - x) + y * origin.w < origin.w * origin.h ∧
      (origin.h - 1 - y) * origin.w + y < origin.w * origin.h) ∧
    ((origin.w = 0 ∨ origin.h = 0) → ∀ px : List Nat,
      flipOnBlank { origin with pixels := px } dir
        = some (SDL_CreateRGBSurface origin.w origin.h)) := by
  refine ⟨?_, ?_, ?_⟩
  · obtain ⟨ret, hret, _⟩ := flipOnBlank_run origin dir hlen
    exact ⟨ret, hret⟩
  · intro x y hx hy
    refine ⟨flat_lt hx hy, ?_, flipY_index_lt (by omega) hy⟩
    rw [Nat.add_comm]
    exact flat_lt (by omega) hy
  · intro hzero px
    unfold flipOnBlank flipLoops
    rcases hzero with h0 | h0
    · simp only [SDL_CreateRGBSurface, h0, List.range_zero, List.foldlM_nil]
      rfl
    · have hin : ∀ (acc : SDL_Surface) (x : Nat),
          (List.range (SDL_CreateRGBSurface origin.w origin.h).h).foldlM
            (flipStep { origin with pixels := px } dir x) acc = some acc := by
        intro acc x
        simp only [SDL_CreateRGBSurface, h0, List.range_zero, List.foldlM_nil]
        rfl
      simp only [hin]
      have hconst : ∀ (l : List Nat) (b : SDL_Surface),
          l.foldlM (fun acc _ => (some acc : Option SDL_Surface)) b = some b := by
        intro l
        induction l with
        | nil => intro b; rfl
        | cons a t ih => intro b; rw [List.foldlM_cons]; exact ih b
      exact hconst _ _

/-- C19 (flip stays inside the pixel arrays), evaluated on the code: as
`create_blank_surface` returns no value, `ret` has no defined value when `flipImage`
reads `ret->w` and writes through `ret`, for the 1x3 buffer `[[1],[2],[3]]` as for the
empty 0x0 buffer; the loops, run on the surface created at line 60, would stay inside
both arrays and give `[[0],[0],[3]]`. -/
theorem flipImage_1x3 :
    flipImage ⟨ARGB8888, 1, 3, 4, [1, 2, 3]⟩ flipDirection.FLIP_Y = none ∧
    flipImage ⟨ARGB8888, 0, 0, 0, []⟩ flipDirection.FLIP_X = none ∧
    flipOnBlank ⟨ARGB8888, 1, 3, 4, [1, 2, 3]⟩ flipDirection.FLIP_Y
      = some ⟨RGB888, 1, 3, 4, [0, 0, 3]⟩ := by
  decide

/-! ## Blur: the accumulators as sums over the window -/

theorem blurAdd_eq (format : SDL_PixelFormat) (acc : BlurAcc) (c : Nat) :
    blurAdd format acc c
      = { rb := (acc.rb + chanR (SDL_GetRGBA c format)) % 2 ^ 32,
          gb := (acc.gb + chanG (SDL_GetRGBA c format)) % 2 ^ 32,
          bb := (acc.bb + chanB (SDL_GetRGBA c format)) % 2 ^ 32,
          ab := (acc.ab + chanA (SDL_GetRGBA c format)) % 2 ^ 32 } := rfl

/-- A cell inside a `W` by `H` buffer is read from the pixel memory. -/
theorem readWord_cell (pixels : List Nat) (W H : Nat) (hlen : pixels.length = W * H)
    (i j : Int) (hi0 : 0 ≤ i) (hi : i < W) (hj0 : 0 ≤ j) (hj : j < H) :
    ∃ c, readWord pixels (j * (W : Int) + i) = some c ∧ c ∈ pixels := by
  obtain ⟨i', rfl⟩ := Int.eq_ofNat_of_zero_le hi0
  obtain ⟨j', rfl⟩ := Int.eq_ofNat_of_zero_le hj0
  have hk : j' * W + i' < pixels.length := hlen ▸ flat_lt (by omega) (by omega)
  refine ⟨pixels[j' * W + i'], ?_, List.getElem_mem _⟩
  rw [flat_cast, readWord_natCast, List.getElem?_eq_getElem hk]

/-- One row of the window: the `Uint32` accumulators after the row are the sums, modulo
`2 ^ 32`, of what they held before and the channels of the cells of the row that lie
inside the buffer. -/
theorem blurCell_fold (image : SDL_Surface)
    (hlen : image.pixels.length = image.pitch / 4 * image.h) (x y yo : Int) :
    ∀ (l : List Int) (a b c d : Nat),
      l.foldlM (blurCell image x y yo)
          { rb := a % 2 ^ 32, gb := b % 2 ^ 32, bb := c % 2 ^ 32, ab := d % 2 ^ 32 }
        = some
          { rb := (a + (l.map (cellChannel chanR image x y yo)).sum) % 2 ^ 32,
            gb := (b + (l.map (cellChannel chanG image x y yo)).sum) % 2 ^ 32,
            bb := (c + (l.map (cellChannel chanB image x y yo)).sum) % 2 ^ 32,
            ab := (d + (l.map (cellChannel chanA image x y yo)).sum) % 2 ^ 32 } := by
  intro l
  induction l with
  | nil => intro a b c d; rfl
  | cons xo t ih =>
    intro a b c d
    rw [List.foldlM_cons]
    by_cases hc : y + yo ≥ 0 ∧ x + xo ≥ 0 ∧ y + yo < image.h ∧
        x + xo < ((image.pitch / 4 : Nat) : Int)
    · obtain ⟨w, hw, _⟩ := readWord_cell image.pixels (image.pitch / 4) image.h hlen
        (x + xo) (y + yo) hc.2.1 hc.2.2.2 hc.1 hc.2.2.1
      have hcell : ∀ sel, cellChannel sel image x y yo xo = sel (SDL_GetRGBA w image.format) := by
        intro sel
        simp only [cellChannel, if_pos hc, hw]
      have hstep : blurCell image x y yo
          { rb := a % 2 ^ 32, gb := b % 2 ^ 32, bb := c % 2 ^ 32, ab := d % 2 ^ 32 } xo
          = some
            { rb := (a + chanR (SDL_GetRGBA w image.format)) % 2 ^ 32,
              gb := (b + chanG (SDL_GetRGBA w image.format)) % 2 ^ 32,
              bb := (c + chanB (SDL_GetRGBA w image.format)) % 2 ^ 32,
              ab := (d + chanA (SDL_GetRGBA w image.format)) % 2 ^ 32 } := by
        simp only [blurCell, if_pos hc, hw, Option.map_some', blurAdd_eq, Nat.mod_add_mod]
      rw [hstep]
      simp only [Option.some_bind, Option.bind_eq_bind, ih, List.map_cons, List.sum_cons,
        hcell, Nat.add_assoc]
    · have hcell : ∀ sel, cellChannel sel image x y yo xo = 0 := by
        intro sel
        simp only [cellChannel, if_neg hc]
      have hstep : blurCell image x y yo
          { rb := a % 2 ^ 32, gb := b % 2 ^ 32, bb := c % 2 ^ 32, ab := d % 2 ^ 32 } xo
          = some { rb := a % 2 ^ 32, gb := b % 2 ^ 32, bb := c % 2 ^ 32, ab := d % 2 ^ 32 } := by
        simp only [blurCell, if_neg hc]
      rw [hstep]
      simp only [Option.some_bind, Option.bind_eq_bind, ih, List.map_cons, List.sum_cons,
        hcell, Nat.zero_add]

/-- All rows of the window, for any list of row offsets and any list of column offsets. -/
theorem blurRows_fold (image : SDL_Surface)
    (hlen : image.pixels.length = image.pitch / 4 * image.h) (x y : Int) (row : List Int) :
    ∀ (l : List Int) (a b c d : Nat),
      l.foldlM (fun acc yo => row.foldlM (blurCell image x y yo) acc)
          { rb := a % 2 ^ 32, gb := b % 2 ^ 32, bb := c % 2 ^ 32, ab := d % 2 ^ 32 }
        = some
          { rb := (a + (l.map fun yo =>
              (row.map (cellChannel chanR image x y yo)).sum).sum) % 2 ^ 32,
            gb := (b + (l.map fun yo =>
              (row.map (cellChannel chanG image x y yo)).sum).sum) % 2 ^ 32,
            bb := (c + (l.map fun yo =>
              (row.map (cellChannel chanB image x y yo)).sum).sum) % 2 ^ 32,
            ab := (d + (l.map fun yo =>
              (row.map (cellChannel chanA image x y yo)).sum).sum) % 2 ^ 32 } := by
  intro l
  induction l with
  | nil => intro a b c d; rfl
  | cons yo t ih =>
    intro a b c d
    rw [List.foldlM_cons, blurCell_fold image hlen x y yo row a b c d]
    simp only [Option.some_bind, Option.bind_eq_bind, ih, List.map_cons, List.sum_cons,
      Nat.add_assoc]

/-- The window loops of `blur` succeed on a buffer with `(pitch / 4) * h` words, and the
four accumulators hold the four window sums modulo `2 ^ 32`. -/
theorem blurSums_eq (blur_extent : Int) (image : SDL_Surface)
    (hlen : image.pixels.length = image.pitch / 4 * image.h) (x y : Int) :
    blurSums blur_extent image x y
      = some { rb := windowSum chanR blur_extent image x y % 2 ^ 32,
               gb := windowSum chanG blur_extent image x y % 2 ^ 32,
               bb := windowSum chanB blur_extent image x y % 2 ^ 32,
               ab := windowSum chanA blur_extent image x y % 2 ^ 32 } := by
  have h := blurRows_fold image hlen x y (intRange (-blur_extent) blur_extent)
    (intRange (-blur_extent) blur_extent) 0 0 0 0
  simp only [Nat.zero_add, Nat.zero_mod] at h
  exact h

/-- The divisor of `blur` is odd, hence not 0, also after the conversion to `Uint32`. -/
theorem blurDivisor_ne_zero (blur_extent : Int) : blurDivisor blur_extent ≠ 0 := by
  unfold blurDivisor
  have h : ((blur_extent * 2) + 1) * ((blur_extent * 2) + 1)
      = 2 * (2 * blur_extent * blur_extent + 2 * blur_extent) + 1 := by ring
  rw [h]
  generalize 2 * blur_extent * blur_extent + 2 * blur_extent = t
  omega

/-- For a radius `R ≥ 0` whose window area is below `2 ^ 32` the divisor is the window
area `(2R+1)^2`. -/
theorem blurDivisor_nat (R : Nat) (hR : (2 * R + 1) * (2 * R + 1) < 2 ^ 32) :
    blurDivisor (R : Int) = (2 * R + 1) * (2 * R + 1) := by
  unfold blurDivisor
  have h : (((R : Int) * 2) + 1) * (((R : Int) * 2) + 1)
      = (((2 * R + 1) * (2 * R + 1) : Nat) : Int) := by push_cast; ring
  rw [h]
  generalize (2 * R + 1) * (2 * R + 1) = n at hR ⊢
  omega

/-- The values of the loop variable, written as a map over the iteration count. -/
theorem intRange_eq_map (lo hi : Int) :
    intRange lo hi = (List.range (hi + 1 - lo).toNat).map (fun k : Nat => lo + (k : Int)) := by
  unfold intRange
  generalize List.range (hi + 1 - lo).toNat = l
  induction l with
  | nil => rfl
  | cons a t ih =>
    rw [List.map_cons, ← ih]
    rfl

theorem length_intRange (R : Nat) : (intRange (-(R : Int)) R).length = 2 * R + 1 := by
  rw [intRange_eq_map, List.length_map, List.length_range]
  omega

theorem mem_intRange (lo hi z : Int) : z ∈ intRange lo hi ↔ lo ≤ z ∧ z ≤ hi := by
  rw [intRange_eq_map, List.mem_map]
  constructor
  · rintro ⟨k, hk, rfl⟩
    rw [List.mem_range] at hk
    omega
  · rintro ⟨h1, h2⟩
    refine ⟨(z - lo).toNat, ?_, ?_⟩
    · rw [List.mem_range]; omega
    · omega

theorem sum_map_le {α : Type} (f : α → Nat) (bound : Nat) :
    ∀ l : List α, (∀ a ∈ l, f a ≤ bound) → (l.map f).sum ≤ l.length * bound := by
  intro l
  induction l with
  | nil => intro _; simp
  | cons a t ih =>
    intro h
    have h1 := h a (List.mem_cons_self a t)
    have h2 := ih (fun b hb => h b (List.mem_cons_of_mem a hb))
    rw [List.map_cons, List.sum_cons, List.length_cons, Nat.add_mul]
    omega

/-- A cell contributes at most 255 to a channel sum when the channels are bytes. -/
theorem cellChannel_le (sel : Nat × Nat × Nat × Nat → Nat) (image : SDL_Surface)
    (hsel : ∀ p, sel (SDL_GetRGBA p image.format) ≤ 255) (x y yo xo : Int) :
    cellChannel sel image x y yo xo ≤ 255 := by
  unfold cellChannel
  split
  · split
    · exact hsel _
    · omega
  · omega

/-- A window sum is at most 255 times the window area `(2R+1)^2`. -/
theorem windowSum_le (sel : Nat × Nat × Nat × Nat → Nat) (R : Nat) (image : SDL_Surface)
    (hsel : ∀ p, sel (SDL_GetRGBA p image.format) ≤ 255) (x y : Int) :
    windowSum sel R image x y ≤ (2 * R + 1) * (2 * R + 1) * 255 := by
  unfold windowSum
  have hrow : ∀ yo ∈ intRange (-(R : Int)) R,
      ((intRange (-(R : Int)) R).map fun xo => cellChannel sel image x y yo xo).sum
        ≤ (2 * R + 1) * 255 := by
    intro yo _
    have := sum_map_le (fun xo => cellChannel sel image x y yo xo) 255
      (intRange (-(R : Int)) R) (fun xo _ => cellChannel_le sel image hsel x y yo xo)
    rwa [length_intRange] at this
  have := sum_map_le
    (fun yo => ((intRange (-(R : Int)) R).map fun xo => cellChannel sel image x y yo xo).sum)
    ((2 * R + 1) * 255) (intRange (-(R : Int)) R) hrow
  rw [length_intRange] at this
  calc _ ≤ (2 * R + 1) * ((2 * R + 1) * 255) := this
    _ = (2 * R + 1) * (2 * R + 1) * 255 := by ring

theorem byteChannels_ARGB8888 : ByteChannels ARGB8888 := by
  intro p
  rw [SDL_GetRGBA_ARGB8888]
  simp only [chanR, chanG, chanB, chanA]
  refine ⟨?_, ?_, ?_, ?_⟩ <;> omega

/-- The body of the pixel loop of `blur` for a pixel `(x, y)` of a buffer with
`(pitch / 4) * h` words: it succeeds and stores, at flat index `y * (pitch / 4) + x`, the
colour assembled from the window sums held modulo `2 ^ 32`. -/
theorem blurStep_eq (blur_extent : Int) (image : SDL_Surface)
    (hlen : image.pixels.length = image.pitch / 4 * image.h) (x y : Nat)
    (hx : x < image.pitch / 4) (hy : y < image.h) :
    blurStep blur_extent y image x
      = some { image with
          pixels := image.pixels.set (y * (image.pitch / 4) + x)
            (blurColor blur_extent
              { rb := windowSum chanR blur_extent image x y % 2 ^ 32,
                gb := windowSum chanG blur_extent image x y % 2 ^ 32,
                bb := windowSum chanB blur_extent image x y % 2 ^ 32,
                ab := windowSum chanA blur_extent image x y % 2 ^ 32 }) } := by
  have hk : y * (image.pitch / 4) + x < image.pixels.length := hlen ▸ flat_lt hx hy
  simp only [blurStep, flat_cast, readWord_natCast, List.getElem?_eq_getElem hk,
    Option.some_bind, blurSums_eq blur_extent image hlen, if_neg (blurDivisor_ne_zero _),
    writeWord_natCast _ _ _ hk, Option.map_some']

/-- The run of `blur` succeeds for every radius on a buffer with `(pitch / 4) * h` words;
format, width, height, pitch and the number of words stay as they are. -/
theorem blur_run (blur_extent : Int) (image : SDL_Surface)
    (hlen : image.pixels.length = image.pitch / 4 * image.h) :
    ∃ out, blur blur_extent image = some out ∧ out.format = image.format ∧
      out.w = image.w ∧ out.h = image.h ∧ out.pitch = image.pitch ∧
      out.pixels.length = image.pixels.length := by
  unfold blur
  have key := foldlM_range_inv
    (fun img y => (List.range (image.pitch / 4)).foldlM (blurStep blur_extent y) img)
    (fun _ img => img.format = image.format ∧ img.w = image.w ∧ img.h = image.h ∧
      img.pitch = image.pitch ∧ img.pixels.length = image.pixels.length)
    image.h image ⟨rfl, rfl, rfl, rfl, rfl⟩
    (by
      intro y img hy hinv
      exact foldlM_range_inv (blurStep blur_extent y)
        (fun _ r => r.format = image.format ∧ r.w = image.w ∧ r.h = image.h ∧
          r.pitch = image.pitch ∧ r.pixels.length = image.pixels.length)
        (image.pitch / 4) img hinv
        (by
          intro x r hx ⟨hf, hw, hh, hp, hl⟩
          have hrlen : r.pixels.length = r.pitch / 4 * r.h := by rw [hl, hp, hh]; exact hlen
          refine ⟨_, blurStep_eq blur_extent r hrlen x y (by rw [hp]; exact hx)
            (by rw [hh]; exact hy), hf, hw, hh, hp, ?_⟩
          simp only [List.length_set]
          exact hl))
  exact key

/-! ## Further claims about `blur` -/

/-- C13 (blur overflow safety): for every buffer whose channels are bytes (such as the
buffer with all channels at 255) and every radius from 0 to 8, `blur` runs to the end,
and in every state the in-place pass can be in (same format, `(pitch / 4) * h` words) and
for every pixel the window loops succeed and each of the four `Uint32` accumulators
holds, when the division takes place, the exact sum over the natural numbers of the
neighbour channel values, which is at most `(2*8+1)^2 * 255 = 73695`. -/
theorem blur_accumulators_exact (image : SDL_Surface)
    (hlen : image.pixels.length = image.pitch / 4 * image.h)
    (hbytes : ByteChannels image.format) (R : Nat) (hR : R ≤ 8) :
    (∃ out, blur R image = some out ∧ out.format = image.format) ∧
    ∀ state : SDL_Surface, state.format = image.format →
      state.pixels.length = state.pitch / 4 * state.h → ∀ x y : Int,
        ∃ acc, blurSums R state x y = some acc ∧
          acc.rb = windowSum chanR R state x y ∧ acc.gb = windowSum chanG R state x y ∧
          acc.bb = windowSum chanB R state x y ∧ acc.ab = windowSum chanA R state x y ∧
          acc.rb ≤ 73695 ∧ acc.gb ≤ 73695 ∧ acc.bb ≤ 73695 ∧ acc.ab ≤ 73695 := by
  constructor
  · obtain ⟨out, hout, hf, _⟩ := blur_run R image hlen
    exact ⟨out, hout, hf⟩
  intro state hfmt hslen x y
  rw [← hfmt] at hbytes
  have harea : (2 * R + 1) * (2 * R + 1) * 255 ≤ 73695 := by
    have h17 : 2 * R + 1 ≤ 17 := by omega
    have := Nat.mul_le_mul h17 h17
    omega
  have hr := windowSum_le chanR R state (fun p => (hbytes p).1) x y
  have hg := windowSum_le chanG R state (fun p => (hbytes p).2.1) x y
  have hb := windowSum_le chanB R state (fun p => (hbytes p).2.2.1) x y
  have ha := windowSum_le chanA R state (fun p => (hbytes p).2.2.2) x y
  refine ⟨_, blurSums_eq R state hslen x y, ?_, ?_, ?_, ?_, ?_, ?_, ?_, ?_⟩
  · exact Nat.mod_eq_of_lt (by omega)
  · exact Nat.mod_eq_of_lt (by omega)
  · exact Nat.mod_eq_of_lt (by omega)
  · exact Nat.mod_eq_of_lt (by omega)
  · exact Nat.le_trans (Nat.mod_le _ _) (by omega)
  · exact Nat.le_trans (Nat.mod_le _ _) (by omega)
  · exact Nat.le_trans (Nat.mod_le _ _) (by omega)
  · exact Nat.le_trans (Nat.mod_le _ _) (by omega)

/-- Witness of C13: the 2x2 ARGB8888 buffer with all channels 255, radius 8. -/
theorem blur_accumulators_exact_witness :
    (∃ out, blur ((8 : Nat) : Int)
        ⟨ARGB8888, 2, 2, 8, [0xFFFFFFFF, 0xFFFFFFFF, 0xFFFFFFFF, 0xFFFFFFFF]⟩ = some out ∧
      out.format = ARGB8888) ∧
    ∀ state : SDL_Surface, state.format = ARGB8888 →
      state.pixels.length = state.pitch / 4 * state.h → ∀ x y : Int,
        ∃ acc, blurSums ((8 : Nat) : Int) state x y = some acc ∧
          acc.rb = windowSum chanR ((8 : Nat) : Int) state x y ∧
          acc.gb = windowSum chanG ((8 : Nat) : Int) state x y ∧
          acc.bb = windowSum chanB ((8 : Nat) : Int) state x y ∧
          acc.ab = windowSum chanA ((8 : Nat) : Int) state x y ∧
          acc.rb ≤ 73695 ∧ acc.gb ≤ 73695 ∧ acc.bb ≤ 73695 ∧ acc.ab ≤ 73695 :=
  blur_accumulators_exact
    ⟨ARGB8888, 2, 2, 8, [0xFFFFFFFF, 0xFFFFFFFF, 0xFFFFFFFF, 0xFFFFFFFF]⟩ (by decide)
    byteChannels_ARGB8888 8 (by decide)

/-- C18 (the 8-bit narrowing loses nothing): for every buffer whose channels are bytes,
every pixel and every radius `R ≥ 0` with `(2R+1)^2 * 255 < 2^32`, each of the four
quotients `S / (2R+1)^2` that `blur` computes is at most 255, so the cast to `Uint8`
returns the quotient itself. -/
theorem blur_quotient_le_255 (image : SDL_Surface)
    (hlen : image.pixels.length = image.pitch / 4 * image.h)
    (hbytes : ByteChannels image.format) (R : Nat)
    (hR : (2 * R + 1) * (2 * R + 1) * 255 < 2 ^ 32) (x y : Int) :
    ∃ acc, blurSums R image x y = some acc ∧
      blurDivisor R = (2 * R + 1) * (2 * R + 1) ∧
      acc.rb / blurDivisor R ≤ 255 ∧ acc.gb / blurDivisor R ≤ 255 ∧
      acc.bb / blurDivisor R ≤ 255 ∧ acc.ab / blurDivisor R ≤ 255 ∧
      acc.rb / blurDivisor R % 256 = acc.rb / blurDivisor R ∧
      acc.gb / blurDivisor R % 256 = acc.gb / blurDivisor R ∧
      acc.bb / blurDivisor R % 256 = acc.bb / blurDivisor R ∧
      acc.ab / blurDivisor R % 256 = acc.ab / blurDivisor R := by
  have hdiv : blurDivisor (R : Int) = (2 * R + 1) * (2 * R + 1) := blurDivisor_nat R (by omega)
  have hq : ∀ sel : Nat × Nat × Nat × Nat → Nat, (∀ p, sel (SDL_GetRGBA p image.format) ≤ 255) →
      windowSum sel R image x y % 2 ^ 32 / blurDivisor (R : Int) ≤ 255 := by
    intro sel hsel
    rw [hdiv]
    apply Nat.div_le_of_le_mul
    exact Nat.le_trans (Nat.mod_le _ _) (windowSum_le sel R image hsel x y)
  have hr := hq chanR (fun p => (hbytes p).1)
  have hg := hq chanG (fun p => (hbytes p).2.1)
  have hb := hq chanB (fun p => (hbytes p).2.2.1)
  have ha := hq chanA (fun p => (hbytes p).2.2.2)
  have h256 : (255 : Nat) < 256 := by decide
  exact ⟨_, blurSums_eq R image hlen x y, hdiv, hr, hg, hb, ha,
    Nat.mod_eq_of_lt (Nat.lt_of_le_of_lt hr h256), Nat.mod_eq_of_lt (Nat.lt_of_le_of_lt hg h256),
    Nat.mod_eq_of_lt (Nat.lt_of_le_of_lt hb h256), Nat.mod_eq_of_lt (Nat.lt_of_le_of_lt ha h256)⟩

/-- Witness of C18: the 2x1 ARGB8888 buffer `[0x5A5A5A5A, 0]`, radius 1, pixel `(0, 0)`. -/
theorem blur_quotient_le_255_witness :
    ∃ acc, blurSums ((1 : Nat) : Int) ⟨ARGB8888, 2, 1, 8, [0x5A5A5A5A, 0]⟩ 0 0 = some acc ∧
      blurDivisor ((1 : Nat) : Int) = (2 * 1 + 1) * (2 * 1 + 1) ∧
      acc.rb / blurDivisor ((1 : Nat) : Int) ≤ 255 ∧ acc.gb / blurDivisor ((1 : Nat) : Int) ≤ 255 ∧
      acc.bb / blurDivisor ((1 : Nat) : Int) ≤ 255 ∧ acc.ab / blurDivisor ((1 : Nat) : Int) ≤ 255 ∧
      acc.rb / blurDivisor ((1 : Nat) : Int) % 256 = acc.rb / blurDivisor ((1 : Nat) : Int) ∧
      acc.gb / blurDivisor ((1 : Nat) : Int) % 256 = acc.gb / blurDivisor ((1 : Nat) : Int) ∧
      acc.bb / blurDivisor ((1 : Nat) : Int) % 256 = acc.bb / blurDivisor ((1 : Nat) : Int) ∧
      acc.ab / blurDivisor ((1 : Nat) : Int) % 256 = acc.ab / blurDivisor ((1 : Nat) : Int) :=
  blur_quotient_le_255 ⟨ARGB8888, 2, 1, 8, [0x5A5A5A5A, 0]⟩ (by decide)
    byteChannels_ARGB8888 1 (by decide) 0 0

/-! ## Blur: the first pixel of a white square -/

theorem sum_range_ge (R v : Nat) :
    ∀ n, ((List.range n).map fun k => if R ≤ k then v else 0).sum = (n - R) * v := by
  intro n
  induction n with
  | zero => simp
  | succ n ih =>
    rw [List.range_succ, List.map_append, List.sum_append, ih, List.map_singleton,
      List.sum_singleton]
    by_cases h : R ≤ n
    · rw [if_pos h, show n + 1 - R = (n - R) + 1 by omega, Nat.add_mul, Nat.one_mul]
    · rw [if_neg h, show n + 1 - R = 0 by omega, show n - R = 0 by omega, Nat.add_zero]

/-- Of the `2R+1` offsets `-R .. R`, the `R+1` non-negative ones are counted. -/
theorem sum_intRange_nonneg (R v : Nat) :
    ((intRange (-(R : Int)) R).map fun z => if 0 ≤ z then v else 0).sum = (R + 1) * v := by
  rw [intRange_eq_map, List.map_map, show ((R : Int) + 1 - -(R : Int)).toNat = 2 * R + 1 by omega]
  have hfun : ∀ k ∈ List.range (2 * R + 1),
      ((fun z : Int => if 0 ≤ z then v else 0) ∘ fun k : Nat => -(R : Int) + (k : Int)) k
        = (fun k => if R ≤ k then v else 0) k := by
    intro k _
    simp only [Function.comp]
    by_cases h : R ≤ k
    · rw [if_pos h, if_pos (by omega)]
    · rw [if_neg h, if_neg (by omega)]
  rw [List.map_congr_left hfun, sum_range_ge, show 2 * R + 1 - R = R + 1 by omega]

/-- Window cells of the pixel `(0, 0)` of a white square: a cell with non-negative offsets
below `n` contributes 255, a cell with a negative offset nothing. -/
theorem whiteSquare_cell (sel : Nat × Nat × Nat × Nat → Nat)
    (hsel : sel (SDL_GetRGBA 0xFFFFFFFF ARGB8888) = 255) (n : Nat) (yo xo : Int)
    (hyo : yo < n) (hxo : xo < n) :
    cellChannel sel (whiteSquare n) 0 0 yo xo
      = if 0 ≤ xo then (if 0 ≤ yo then 255 else 0) else 0 := by
  have hp : (whiteSquare n).pitch / 4 = n := Nat.mul_div_cancel_left n (by decide)
  have hh : (whiteSquare n).h = n := rfl
  have hlen : (whiteSquare n).pixels.length = n * n := List.length_replicate _ _
  unfold cellChannel
  rw [hp, hh]
  by_cases hx0 : 0 ≤ xo
  · by_cases hy0 : 0 ≤ yo
    · rw [if_pos hx0, if_pos hy0, if_pos ⟨by omega, by omega, by omega, by omega⟩]
      obtain ⟨c, hc, hmem⟩ := readWord_cell (whiteSquare n).pixels n n hlen
        (0 + xo) (0 + yo) (by omega) (by omega) (by omega) (by omega)
      rw [hc]
      have hcw : c = 0xFFFFFFFF := List.eq_of_mem_replicate hmem
      rw [hcw]
      exact hsel
    · rw [if_pos hx0, if_neg hy0, if_neg (by omega)]
  · rw [if_neg hx0, if_neg (by omega)]

/-- The window sum of the first pixel of a white `(R+1)` by `(R+1)` square at radius `R`:
all `(R+1)^2` pixels of the square, 255 each. -/
theorem whiteSquare_windowSum (sel : Nat × Nat × Nat × Nat → Nat)
    (hsel : sel (SDL_GetRGBA 0xFFFFFFFF ARGB8888) = 255) (R : Nat) :
    windowSum sel (R : Int) (whiteSquare (R + 1)) 0 0 = (R + 1) * ((R + 1) * 255) := by
  unfold windowSum
  have hrow : ∀ yo ∈ intRange (-(R : Int)) R,
      ((intRange (-(R : Int)) R).map fun xo =>
          cellChannel sel (whiteSquare (R + 1)) 0 0 yo xo).sum
        = if 0 ≤ yo then (R + 1) * 255 else 0 := by
    intro yo hyo
    rw [mem_intRange] at hyo
    have hcells : ∀ xo ∈ intRange (-(R : Int)) R,
        cellChannel sel (whiteSquare (R + 1)) 0 0 yo xo
          = (fun z : Int => if 0 ≤ z then (if 0 ≤ yo then 255 else 0) else 0) xo := by
      intro xo hxo
      rw [mem_intRange] at hxo
      exact whiteSquare_cell sel hsel (R + 1) yo xo (by push_cast; omega) (by push_cast; omega)
    rw [List.map_congr_left hcells, sum_intRange_nonneg]
    by_cases hy0 : 0 ≤ yo
    · rw [if_pos hy0, if_pos hy0]
    · rw [if_neg hy0, if_neg hy0, Nat.mul_zero]
  rw [List.map_congr_left hrow, sum_intRange_nonneg]

/-! ## The per-pixel step of `blur` -/

/-- C15 as stated fails for a large buffer and radius: on the white 4105 by 4105 ARGB8888
buffer with `blur_extent = 4104` the first pixel has all `4105^2` pixels in its window,
so every channel sum is `S = 4105^2 * 255 = 4297011375`, above `2^32`; the `Uint32`
accumulator holds `S - 2^32 = 2044079`, the divisor is `8209^2 = 67387681`, and `blur`
stores the word 0 (every channel 0) at `(0, 0)`, while `floor(S / (2R+1)^2)` is 63. -/
theorem blur_accumulator_wraps :
    windowSum chanR 4104 (whiteSquare 4105) 0 0 = 4297011375 ∧
    windowSum chanG 4104 (whiteSquare 4105) 0 0 = 4297011375 ∧
    windowSum chanB 4104 (whiteSquare 4105) 0 0 = 4297011375 ∧
    windowSum chanA 4104 (whiteSquare 4105) 0 0 = 4297011375 ∧
    4297011375 / ((2 * 4104 + 1) * (2 * 4104 + 1)) % 256 = 63 ∧
    blurStep 4104 0 (whiteSquare 4105) 0
      = some { whiteSquare 4105 with pixels := (whiteSquare 4105).pixels.set 0 0 } := by
  have hr : windowSum chanR 4104 (whiteSquare 4105) 0 0 = 4297011375 :=
    whiteSquare_windowSum chanR (by decide) 4104
  have hg : windowSum chanG 4104 (whiteSquare 4105) 0 0 = 4297011375 :=
    whiteSquare_windowSum chanG (by decide) 4104
  have hb : windowSum chanB 4104 (whiteSquare 4105) 0 0 = 4297011375 :=
    whiteSquare_windowSum chanB (by decide) 4104
  have ha : windowSum chanA 4104 (whiteSquare 4105) 0 0 = 4297011375 :=
    whiteSquare_windowSum chanA (by decide) 4104
  refine ⟨hr, hg, hb, ha, by decide, ?_⟩
  have hp : (whiteSquare 4105).pitch / 4 = 4105 := Nat.mul_div_cancel_left 4105 (by decide)
  have hlen : (whiteSquare 4105).pixels.length
      = (whiteSquare 4105).pitch / 4 * (whiteSquare 4105).h := by
    rw [hp]; exact List.length_replicate _ _
  have hstep := blurStep_eq 4104 (whiteSquare 4105) hlen 0 0 (by rw [hp]; decide) (by decide)
  have hcol : blurColor 4104
      { rb := 4297011375 % 2 ^ 32, gb := 4297011375 % 2 ^ 32,
        bb := 4297011375 % 2 ^ 32, ab := 4297011375 % 2 ^ 32 } = 0 := by decide
  rw [Nat.zero_mul, Nat.zero_add] at hstep
  rw [hstep]
  have e1 : windowSum chanR 4104 (whiteSquare 4105) ((0 : Nat) : Int) ((0 : Nat) : Int)
      = 4297011375 := hr
  have e2 : windowSum chanG 4104 (whiteSquare 4105) ((0 : Nat) : Int) ((0 : Nat) : Int)
      = 4297011375 := hg
  have e3 : windowSum chanB 4104 (whiteSquare 4105) ((0 : Nat) : Int) ((0 : Nat) : Int)
      = 4297011375 := hb
  have e4 : windowSum chanA 4104 (whiteSquare 4105) ((0 : Nat) : Int) ((0 : Nat) : Int)
      = 4297011375 := ha
  rw [e1, e2, e3, e4, hcol]

/-- C15 amended (per-pixel step of `blur`, full window as divisor): for every buffer with
`(pitch / 4) * h` words, every pixel `(x, y)` and every radius `R ≥ 0` such that the
window area `(2R+1)^2` and the four channel sums are below `2^32`, `blur` stores at
`(x, y)` the word `r | g << 8 | b << 16 | a << 24` whose channel values are
`floor(S / (2R+1)^2)` narrowed to 8 bits, `S` being the sum of the channel over the
window cells that lie inside the buffer, read from the buffer as it stands when `(x, y)`
is processed; the divisor is `(2R+1)^2` for border pixels as well. -/
theorem blurStep_full_window (image : SDL_Surface)
    (hlen : image.pixels.length = image.pitch / 4 * image.h) (R x y : Nat)
    (hx : x < image.pitch / 4) (hy : y < image.h)
    (hdiv : (2 * R + 1) * (2 * R + 1) < 2 ^ 32)
    (hr : windowSum chanR R image x y < 2 ^ 32) (hg : windowSum chanG R image x y < 2 ^ 32)
    (hb : windowSum chanB R image x y < 2 ^ 32) (ha : windowSum chanA R image x y < 2 ^ 32) :
    blurStep R y image x
      = some { image with
          pixels := image.pixels.set (y * (image.pitch / 4) + x)
            ((windowSum chanR R image x y / ((2 * R + 1) * (2 * R + 1)) % 256) |||
              ((windowSum chanG R image x y / ((2 * R + 1) * (2 * R + 1)) % 256) <<< 8) |||
              ((windowSum chanB R image x y / ((2 * R + 1) * (2 * R + 1)) % 256) <<< 16) |||
              ((windowSum chanA R image x y / ((2 * R + 1) * (2 * R + 1)) % 256) <<< 24)) } := by
  rw [blurStep_eq R image hlen x y hx hy]
  simp only [blurColor, blurDivisor_nat R hdiv, Nat.mod_eq_of_lt hr, Nat.mod_eq_of_lt hg,
    Nat.mod_eq_of_lt hb, Nat.mod_eq_of_lt ha]

/-- Witness of C15 amended: the corner pixel `(0, 0)` of the 2x1 buffer
`[0x5A5A5A5A, 0]` at radius 1; one cell of channel 90 plus one of channel 0, divided by
9, gives 10 in every channel. -/
theorem blurStep_full_window_witness :
    blurStep ((1 : Nat) : Int) 0 ⟨ARGB8888, 2, 1, 8, [0x5A5A5A5A, 0]⟩ 0
      = some ⟨ARGB8888, 2, 1, 8, [0x0A0A0A0A, 0]⟩ :=
  blurStep_full_window ⟨ARGB8888, 2, 1, 8, [0x5A5A5A5A, 0]⟩ (by decide) 1 0 0
    (by decide) (by decide) (by decide) (by decide) (by decide) (by decide) (by decide)

/-! ## Blur with `blur_extent = 0`: the exchange of red and blue -/

/-- The four bytes of a base-256 number. -/
theorem bytes_of_pack (x0 x1 x2 x3 : Nat) (h0 : x0 < 256) (h1 : x1 < 256) (h2 : x2 < 256) :
    (x0 + x1 * 256 + x2 * 65536 + x3 * 16777216) / 65536 % 256 = x2 ∧
    (x0 + x1 * 256 + x2 * 65536 + x3 * 16777216) / 256 % 256 = x1 ∧
    (x0 + x1 * 256 + x2 * 65536 + x3 * 16777216) % 256 = x0 ∧
    (x0 + x1 * 256 + x2 * 65536 + x3 * 16777216) / 16777216 = x3 := by
  refine ⟨?_, ?_, ?_, ?_⟩
  · have h : (x0 + x1 * 256 + x2 * 65536 + x3 * 16777216) / 65536 = x2 + x3 * 256 := by omega
    rw [h]; omega
  · have h : (x0 + x1 * 256 + x2 * 65536 + x3 * 16777216) / 256
        = x1 + x2 * 256 + x3 * 65536 := by omega
    rw [h]; omega
  · omega
  · omega

/-- The colour stored for an ARGB8888 word with `blur_extent = 0`, applied twice, is the
word itself. -/
theorem blurColor_zero_twice (p : Nat) (hp : p < 2 ^ 32) :
    blurColor 0 (blurAdd ARGB8888 ⟨0, 0, 0, 0⟩ (blurColor 0 (blurAdd ARGB8888 ⟨0, 0, 0, 0⟩ p)))
      = p := by
  rw [blurColor_zero_ARGB8888 p hp]
  have hb0 : p / 65536 % 256 < 256 := Nat.mod_lt _ (by decide)
  have hb1 : p / 256 % 256 < 256 := Nat.mod_lt _ (by decide)
  have hb2 : p % 256 < 256 := Nat.mod_lt _ (by decide)
  have hb3 : p / 16777216 < 256 := by omega
  have hq : p / 65536 % 256 + p / 256 % 256 * 256 + p % 256 * 65536 + p / 16777216 * 16777216
      < 2 ^ 32 := by
    generalize p / 65536 % 256 = c0 at hb0 ⊢
    generalize p / 256 % 256 = c1 at hb1 ⊢
    generalize p % 256 = c2 at hb2 ⊢
    generalize p / 16777216 = c3 at hb3 ⊢
    omega
  rw [blurColor_zero_ARGB8888 _ hq]
  obtain ⟨e1, e2, e3, e4⟩ := bytes_of_pack (p / 65536 % 256) (p / 256 % 256) (p % 256)
    (p / 16777216) hb0 hb1 hb2
  rw [e1, e2, e3, e4]
  have hw := word_bytes p
  generalize p / 65536 % 256 = c0 at hw ⊢
  generalize p / 256 % 256 = c1 at hw ⊢
  generalize p % 256 = c2 at hw ⊢
  generalize p / 16777216 = c3 at hw ⊢
  omega

/-- C16 (blur exchanges red and blue in the ARGB8888 layout): the word `0xAARRGGBB` is
unpacked by the format as `(r, g, b, a)` and repacked with `blur_extent = 0` as
`r | g << 8 | b << 16 | a << 24`, which is the word `0xAABBGGRR`; on every well-formed
ARGB8888 buffer `blur` with `blur_extent = 0` succeeds and replaces every pixel that
way, and running it a second time restores the original buffer. -/
theorem blur_zero_swaps_red_blue (image : SDL_Surface) (hwf : image.WellFormed)
    (hfmt : image.format = ARGB8888) :
    (∀ a r g b, a < 256 → r < 256 → g < 256 → b < 256 →
      SDL_GetRGBA ((a <<< 24) ||| (r <<< 16) ||| (g <<< 8) ||| b) ARGB8888 = (r, g, b, a) ∧
      blurColor 0 (blurAdd ARGB8888 ⟨0, 0, 0, 0⟩ ((a <<< 24) ||| (r <<< 16) ||| (g <<< 8) ||| b))
        = r ||| (g <<< 8) ||| (b <<< 16) ||| (a <<< 24) ∧
      r ||| (g <<< 8) ||| (b <<< 16) ||| (a <<< 24)
        = (a <<< 24) ||| (b <<< 16) ||| (g <<< 8) ||| r) ∧
    ∃ once, blur 0 image = some once ∧
      once.pixels
        = image.pixels.map (fun p => blurColor 0 (blurAdd ARGB8888 ⟨0, 0, 0, 0⟩ p)) ∧
      blur 0 once = some image := by
  constructor
  · intro a r g b ha hr hg hb
    have hword := pack_high_first b g r a hb hg hr
    obtain ⟨e1, e2, e3, e4⟩ := bytes_of_pack b g r a hb hg hr
    have hlt : b + g * 256 + r * 65536 + a * 16777216 < 2 ^ 32 := by omega
    refine ⟨?_, ?_, ?_⟩
    · rw [hword, SDL_GetRGBA_ARGB8888, e1, e2, e3, e4, Nat.mod_eq_of_lt ha]
    · rw [hword, blurColor_zero_ARGB8888 _ hlt, e1, e2, e3, e4, pack_low_first r g b a hr hg hb]
    · rw [pack_low_first r g b a hr hg hb, pack_high_first r g b a hr hg hb]
  · obtain ⟨hpitch, hlen, hword⟩ := hwf
    have hlen2 : image.pixels.length = image.pitch / 4 * image.h := by
      rw [hlen, hpitch]; congr 1; omega
    have h1 := blur_zero_eq_map image hlen2
    have h2 := blur_zero_eq_map
      { image with
        pixels := image.pixels.map fun v => blurColor 0 (blurAdd image.format ⟨0, 0, 0, 0⟩ v) }
      (by simpa using hlen2)
    refine ⟨_, h1, by rw [hfmt], ?_⟩
    rw [h2]
    have hback : (image.pixels.map fun v =>
          blurColor 0 (blurAdd image.format ⟨0, 0, 0, 0⟩ v)).map
          (fun v => blurColor 0 (blurAdd image.format ⟨0, 0, 0, 0⟩ v)) = image.pixels := by
      rw [List.map_map]
      conv_rhs => rw [← List.map_id image.pixels]
      apply List.map_congr_left
      intro p hp
      simp only [Function.comp, id, hfmt]
      exact blurColor_zero_twice p (hword p hp)
    simp only [hback]

/-- Witness of C16 on the 1x1 buffer `[0xFF010203]`. -/
theorem blur_zero_swaps_red_blue_witness :
    ∃ once, blur 0 ⟨ARGB8888, 1, 1, 4, [0xFF010203]⟩ = some once ∧
      once.pixels
        = [0xFF010203].map (fun p => blurColor 0 (blurAdd ARGB8888 ⟨0, 0, 0, 0⟩ p)) ∧
      blur 0 once = some ⟨ARGB8888, 1, 1, 4, [0xFF010203]⟩ :=
  (blur_zero_swaps_red_blue ⟨ARGB8888, 1, 1, 4, [0xFF010203]⟩ (by decide) rfl).2

end SdlImage
